import Mathlib

/-!
Verification of the desugaring and rewriting core (src/ast/desugar/Desugar.cc,
src/rewriter/TEnum.cc, src/rewriter/Minitest.cc) against its specification.

The development shallowly embeds the parse-tree fragment and the TAST fragment
that the verified properties speak about, together with the desugar engine arms
for that fragment, translated clause by clause from Desugar.cc.  Side effects
are made explicit: the fresh-name counter is threaded as a natural number and
diagnostics are returned as a list.  Machine integers (the C++ int64_t used by
integer literal decoding) are modelled as Int with explicit range checks.
-/

namespace Sorbet

/-- Source locations: either an absent location carrying only the file id
(core::Loc::none(file)) or a byte range within a file. -/
inductive Loc where
  | noneL (file : Nat)
  | range (file b e : Nat)
deriving DecidableEq, Repr

/-- Whether the location exists (core::Loc::exists). -/
def Loc.present : Loc → Bool
  | .noneL _ => false
  | .range _ _ _ => true

/-- The file id of a location. -/
def Loc.file : Loc → Nat
  | .noneL f => f
  | .range f _ _ => f

/-- core::Loc::copyWithZeroLength: collapse the range to its start point. -/
def Loc.copyWithZeroLength : Loc → Loc
  | .noneL f => .noneL f
  | .range f b _ => .range f b b

/-- UniqueNameKind tags used by freshNameUnique in the embedded code. -/
inductive UniqueKind where
  | desugar
  | tenum
deriving DecidableEq, Repr

/-- Interned names.  utf8 is enterNameUTF8, unique is freshNameUnique,
constant is enterNameConstant applied to an inner name. -/
inductive Name where
  | utf8 (s : String)
  | unique (kind : UniqueKind) (base : Name) (num : Nat)
  | constant (base : Name)
deriving DecidableEq, Repr

/-- Well-known names from core::Names used by the embedded arms. -/
def Names.assignTemp : Name := .utf8 "assignTemp"

def Names.destructureArg : Name := .utf8 "destructureArg"

def Names.blockPassTemp : Name := .utf8 "blockPassTemp"

def Names.blkArg : Name := .utf8 "blkArg"

def Names.eqeq : Name := .utf8 "=="

def Names.tripleEq : Name := .utf8 "==="

def Names.slice : Name := .utf8 "slice"

def Names.squareBrackets : Name := .utf8 "[]"

def Names.expandSplat : Name := .utf8 "<expand-splat>"

def Names.newName : Name := .utf8 "new"

def Names.blockGivenP : Name := .utf8 "block_given?"

def Names.callWithBlock : Name := .utf8 "<call-with-block>"

def Names.selfNew : Name := .utf8 "<self-new>"

def Names.letName : Name := .utf8 "let"

def Names.includeName : Name := .utf8 "include"

def Names.extendName : Name := .utf8 "extend"

def Names.declareFinal : Name := .utf8 "final!"

def Names.declareAbstract : Name := .utf8 "abstract!"

def Names.declareSealed : Name := .utf8 "sealed!"

def Names.instanceName : Name := .utf8 "instance"

def Names.enums : Name := .utf8 "enums"

def Names.constSet : Name := .utf8 "const_set"

def Names.unsafeName : Name := .utf8 "unsafe"

def Names.cEnum : Name := .constant (.utf8 "Enum")

def Names.cT : Name := .constant (.utf8 "T")

/-- Well-known resolved symbols (core::Symbols) referenced by the embedded
code: the root scope, the todo placeholder used by the Class tree constructor,
and the hard-wired classes Magic, Range, Singleton, T, T::Helpers, Module. -/
inductive Sym where
  | root
  | todo
  | magic
  | rangeCls
  | singletonCls
  | tCls
  | tHelpers
  | moduleCls
deriving DecidableEq, Repr

/-- Binding kinds of UnresolvedIdent. -/
inductive IdentKind where
  | localK
  | instanceK
  | classK
  | globalK
deriving DecidableEq, Repr

/-- Literal payloads of the TAST Literal node. -/
inductive LitVal where
  | int (v : Int)
  | str (s : Name)
  | sym (s : Name)
  | nilL
  | trueL
  | falseL
deriving DecidableEq, Repr

/-- The TAST expression tree (ast/ast.h), restricted to the variants produced
by the embedded arms.  sendE carries the PRIVATE_OK flag as a Bool and an
optional block; classDef carries both the resolved symbol and the name
expression, plus a kind tag (isModule). -/
inductive Expr where
  | emptyTree
  | ident (loc : Loc) (kind : IdentKind) (name : Name)
  | constantLit (loc : Loc) (sym : Sym)
  | unresolvedConst (loc : Loc) (scope : Expr) (cnst : Name)
  | selfE (loc : Loc)
  | lit (loc : Loc) (v : LitVal)
  | assignE (loc : Loc) (lhs rhs : Expr)
  | sendE (loc : Loc) (recv : Expr) (fn : Name) (args : List Expr) (privateOk : Bool) (blk : Option Expr)
  | blockE (loc : Loc) (args : List Expr) (body : Expr)
  | blockArgE (loc : Loc) (expr : Expr)
  | restArgE (loc : Loc) (expr : Expr)
  | methodDef (loc declLoc : Loc) (name : Name) (args : List Expr) (body : Expr) (isSelf synthesized : Bool)
  | classDef (loc declLoc : Loc) (sym : Sym) (name : Expr) (ancestors : List Expr) (body : List Expr) (isModule : Bool)
  | ifE (loc : Loc) (cond thenp elsep : Expr)
  | insSeqE (loc : Loc) (stats : List Expr) (expr : Expr)
  | arrayE (loc : Loc) (elems : List Expr)
  | returnE (loc : Loc) (expr : Expr)
  | breakE (loc : Loc) (expr : Expr)
  | nextE (loc : Loc) (expr : Expr)

/-- The location stored in a TAST node (EmptyTree carries Loc::none). -/
def Expr.loc : Expr → Loc
  | .emptyTree => .noneL 0
  | .ident l _ _ => l
  | .constantLit l _ => l
  | .unresolvedConst l _ _ => l
  | .selfE l => l
  | .lit l _ => l
  | .assignE l _ _ => l
  | .sendE l _ _ _ _ _ => l
  | .blockE l _ _ => l
  | .blockArgE l _ => l
  | .restArgE l _ => l
  | .methodDef l _ _ _ _ _ _ => l
  | .classDef l _ _ _ _ _ _ => l
  | .ifE l _ _ _ => l
  | .insSeqE l _ _ => l
  | .arrayE l _ => l
  | .returnE l _ => l
  | .breakE l _ => l
  | .nextE l _ => l

/-- isa_tree EmptyTree. -/
def Expr.isEmptyTree : Expr → Bool
  | .emptyTree => true
  | _ => false

/-- isa_tree BlockArg. -/
def Expr.isBlockArg : Expr → Bool
  | .blockArgE _ _ => true
  | _ => false

/-- Literal that is a Symbol (Literal::isSymbol). -/
def Expr.isSymbolLit : Expr → Bool
  | .lit _ (.sym _) => true
  | _ => false

namespace MK

/-- ast::MK::Local builds an UnresolvedIdent with Local kind (locals are
resolved by a later phase); Desugar.cc itself relies on this shape when
buildMethod recovers the block-parameter name from the last argument. -/
def Local (loc : Loc) (name : Name) : Expr := .ident loc .localK name

def EmptyTree : Expr := .emptyTree

def Self (loc : Loc) : Expr := .selfE loc

def Nil (loc : Loc) : Expr := .lit loc .nilL

def True_ (loc : Loc) : Expr := .lit loc .trueL

def False_ (loc : Loc) : Expr := .lit loc .falseL

def Int_ (loc : Loc) (v : Int) : Expr := .lit loc (.int v)

def String_ (loc : Loc) (s : Name) : Expr := .lit loc (.str s)

def Symbol (loc : Loc) (s : Name) : Expr := .lit loc (.sym s)

def Constant (loc : Loc) (sym : Sym) : Expr := .constantLit loc sym

def UnresolvedConstant (loc : Loc) (scope : Expr) (cnst : Name) : Expr :=
  .unresolvedConst loc scope cnst

/-- ast::MK::Assign with an expression left-hand side. -/
def Assign (loc : Loc) (lhs rhs : Expr) : Expr := .assignE loc lhs rhs

/-- ast::MK::Assign with a NameRef left-hand side (wraps it in a Local). -/
def AssignLocal (loc : Loc) (name : Name) (rhs : Expr) : Expr :=
  .assignE loc (Local loc name) rhs

def Send (loc : Loc) (recv : Expr) (fn : Name) (args : List Expr) (privateOk : Bool)
    (blk : Option Expr) : Expr :=
  .sendE loc recv fn args privateOk blk

def Send0 (loc : Loc) (recv : Expr) (fn : Name) : Expr := .sendE loc recv fn [] false none

def Send1 (loc : Loc) (recv : Expr) (fn : Name) (a1 : Expr) : Expr :=
  .sendE loc recv fn [a1] false none

def Send2 (loc : Loc) (recv : Expr) (fn : Name) (a1 a2 : Expr) : Expr :=
  .sendE loc recv fn [a1, a2] false none

def Send3 (loc : Loc) (recv : Expr) (fn : Name) (a1 a2 a3 : Expr) : Expr :=
  .sendE loc recv fn [a1, a2, a3] false none

def If (loc : Loc) (cond thenp elsep : Expr) : Expr := .ifE loc cond thenp elsep

/-- Modelled from the spec, §3.2 invariant 3: the InsSeq tree constructor
collapses an empty statement list to the final expression (the constructor
itself lives in ast/Helpers.h, outside src/). -/
def InsSeq (loc : Loc) (stats : List Expr) (expr : Expr) : Expr :=
  match stats with
  | [] => expr
  | _ => .insSeqE loc stats expr

def InsSeq1 (loc : Loc) (stat expr : Expr) : Expr := .insSeqE loc [stat] expr

def Array (loc : Loc) (elems : List Expr) : Expr := .arrayE loc elems

def Return (loc : Loc) (expr : Expr) : Expr := .returnE loc expr

def Break (loc : Loc) (expr : Expr) : Expr := .breakE loc expr

def Next (loc : Loc) (expr : Expr) : Expr := .nextE loc expr

def BlockArg (loc : Loc) (expr : Expr) : Expr := .blockArgE loc expr

def RestArg (loc : Loc) (expr : Expr) : Expr := .restArgE loc expr

def Block (loc : Loc) (body : Expr) (args : List Expr) : Expr := .blockE loc args body

def Block1 (loc : Loc) (body : Expr) (arg : Expr) : Expr := .blockE loc [arg] body

/-- ast::MK::Method; flags (SelfMethod, RewriterSynthesized) are set by the
callers after construction, mirrored here by the two Bool fields. -/
def Method (loc declLoc : Loc) (name : Name) (args : List Expr) (body : Expr)
    (isSelf : Bool) : Expr :=
  .methodDef loc declLoc name args body isSelf false

/-- ast::MK::Class: a ClassDef with the todo placeholder symbol, Class kind. -/
def Class (loc declLoc : Loc) (name : Expr) (ancestors : List Expr) (body : List Expr) : Expr :=
  .classDef loc declLoc .todo name ancestors body false

/-- Modelled from the spec: T.unsafe(expr), the unsafe marker used by the
test-DSL rewriter (ast::MK::Unsafe lives in ast/Helpers.h, outside src/). -/
def Unsafe (loc : Loc) (expr : Expr) : Expr :=
  .sendE loc (Constant loc .tCls) Names.unsafeName [expr] false none

/-- Modelled from the spec: T.let(value, type) (ast::MK::Let lives in
ast/Helpers.h, outside src/). -/
def Let (loc : Loc) (value ty : Expr) : Expr :=
  .sendE loc (Constant loc .tCls) Names.letName [value, ty] false none

/-- Modelled from the spec: recognizer for the hard-wired Magic class constant
(ast::MK::isMagicClass lives in ast/Helpers.h, outside src/); desugar creates
Magic receivers as resolved constants of the Magic symbol. -/
def isMagicClass : Expr → Bool
  | .constantLit _ .magic => true
  | _ => false

/-- Modelled from the spec: recognizer for the Magic.⟨self-new⟩(...) intrinsic
call produced for enum values (ast::MK::isSelfNew lives in ast/Helpers.h,
outside src/). -/
def isSelfNew : Expr → Bool
  | .sendE _ recv fn _ _ _ => fn = Names.selfNew && isMagicClass recv
  | _ => false

end MK

end Sorbet

namespace Sorbet

/-- The parse-tree fragment (parser nodes) consumed by the embedded desugar
arms.  Shapes that the parser guarantees are built into the constructors:
masgnN stores the Mlhs left-hand side inline (Desugar.cc ENFORCEs the cast),
caseN stores each when clause as (loc, patterns, body) (Desugar.cc ENFORCEs
the When cast), and defMethodN stores the argument list of the Args node (or
none for a null argument node). -/
inductive PNode where
  | lvar (loc : Loc) (name : Name)
  | lvarLhs (loc : Loc) (name : Name)
  | ivarLhs (loc : Loc) (name : Name)
  | selfN (loc : Loc)
  | nilN (loc : Loc)
  | trueN (loc : Loc)
  | falseN (loc : Loc)
  | integerN (loc : Loc) (val : String)
  | symbolN (loc : Loc) (val : Name)
  | constN (loc : Loc) (scope : Option PNode) (name : Name)
  | beginN (loc : Loc) (stmts : List PNode)
  | sendN (loc : Loc) (recv : Option PNode) (method : Name) (args : List PNode)
  | csendN (loc : Loc) (recv : PNode) (method : Name) (args : List PNode)
  | blockPassN (loc : Loc) (blk : Option PNode)
  | masgnN (loc : Loc) (mlhsLoc : Loc) (mlhs : List PNode) (rhs : PNode)
  | mlhsN (loc : Loc) (exprs : List PNode)
  | splatLhsN (loc : Loc) (var : Option PNode)
  | restargN (loc nameLoc : Loc) (name : Name)
  | argN (loc : Loc) (name : Name)
  | blockargN (loc : Loc) (name : Name)
  | caseN (loc : Loc) (cond : Option PNode) (whens : List (Loc × List PNode × Option PNode)) (els : Option PNode)
  | returnN (loc : Loc) (exprs : List PNode)
  | nextN (loc : Loc) (exprs : List PNode)
  | defMethodN (loc declLoc : Loc) (name : Name) (args : Option (List PNode)) (body : Option PNode)
  | defSN (loc declLoc : Loc) (singleton : PNode) (name : Name) (args : Option (List PNode)) (body : Option PNode)

/-- The location of a parse node. -/
def PNode.loc : PNode → Loc
  | .lvar l _ => l
  | .lvarLhs l _ => l
  | .ivarLhs l _ => l
  | .selfN l => l
  | .nilN l => l
  | .trueN l => l
  | .falseN l => l
  | .integerN l _ => l
  | .symbolN l _ => l
  | .constN l _ _ => l
  | .beginN l _ => l
  | .sendN l _ _ _ => l
  | .csendN l _ _ _ => l
  | .blockPassN l _ => l
  | .masgnN l _ _ _ => l
  | .mlhsN l _ => l
  | .splatLhsN l _ => l
  | .restargN l _ _ => l
  | .argN l _ => l
  | .blockargN l _ => l
  | .caseN l _ _ _ => l
  | .returnN l _ => l
  | .nextN l _ => l
  | .defMethodN l _ _ _ _ => l
  | .defSN l _ _ _ _ _ => l

/-- isa_node BlockPass. -/
def PNode.isBlockPass : PNode → Bool
  | .blockPassN _ _ => true
  | _ => false

/-- isa_node SplatLhs. -/
def PNode.isSplatLhs : PNode → Bool
  | .splatLhsN _ _ => true
  | _ => false

/-- The (possibly null) operand of a BlockPass node, none for other nodes. -/
def PNode.blockPassArg : PNode → Option (Option PNode)
  | .blockPassN _ b => some b
  | _ => none

/-- The block argument extracted by the Send arm loop: the loop keeps
overwriting its block variable, so the last BlockPass in the argument list
wins; the inner Option is the BlockPass node operand (which may itself be
null). -/
def extractBlockPass : List PNode → Option (Option PNode)
  | [] => none
  | p :: rest =>
    match p.blockPassArg with
    | some b => (extractBlockPass rest).orElse (fun _ => some b)
    | none => extractBlockPass rest

/-- Diagnostics emitted by the embedded code, tagged by their error code and
the header location passed to beginError. -/
inductive Diag where
  | unsupportedNode (loc : Loc)
  | integerOutOfRange (loc : Loc)
  | codeInRBI (loc : Loc)
  | invalidSingletonDef (loc : Loc)
  | unsupportedRestArgsDestructure (loc : Loc)
  | tenumConstNotEnumValue (loc : Loc)
  | tenumOutsideEnumsDo (loc : Loc)
deriving DecidableEq, Repr

/-- The desugar context: the enclosing block-argument name (set inside method
bodies) and the per-file interface-only (RBI) attribute of the file table. -/
structure Ctx where
  enclosingBlockArg : Option Name
  rbiFiles : Nat → Bool

/-- Modelled from the library function absl::SimpleAtoi over int64_t: the
whole string must be an optionally signed base-10 numeral whose value fits in
the 64-bit signed range; otherwise parsing fails. -/
def simpleAtoi (s : String) : Option Int :=
  let signed : Int × List Char :=
    match s.data with
    | '-' :: rest => (-1, rest)
    | '+' :: rest => (1, rest)
    | l => (1, l)
  let digits := signed.2
  if digits.isEmpty || !digits.all Char.isDigit then none
  else
    let mag : Nat := digits.foldl (fun a c => a * 10 + (c.toNat - 48)) 0
    let v : Int := signed.1 * mag
    if v < -(2 ^ 63) || v > 2 ^ 63 - 1 then none else some v

/-- int64_t ones-complement: ~v = -v - 1 (all int64 inputs stay in range). -/
def intComplement (v : Int) : Int := -v - 1

/-- The accumulator threaded through the desugarMlhs element loop: the emitted
statements, the running index i (which becomes negative after a splat), the
before and after counts, the didSplat flag, the fresh-name counter and the
emitted diagnostics. -/
structure MlhsAcc where
  stats : List Expr
  i : Int
  before : Nat
  after : Nat
  didSplat : Bool
  ctr : Nat
  diags : List Diag

/-- &:sym expansion (symbol2Proc): a one-parameter block calling the symbol
on a fresh blockPassTemp local; the synthesized parameter carries a
zero-length Loc. -/
def symbol2Proc (expr : Expr) (symName : Name) (c : Nat) : Expr × Nat :=
  let loc := expr.loc
  let c1 := c + 1
  let temp := Name.unique .desugar Names.blockPassTemp c1
  let zLoc := loc.copyWithZeroLength
  let recv := MK.Local zLoc temp
  let body := MK.Send0 loc recv symName
  (MK.Block1 loc body (MK.Local zLoc temp), c1)

/-- The symbol payload of a Literal known to be a Symbol. -/
def Expr.symValue : Expr → Name
  | .lit _ (.sym s) => s
  | _ => Names.blkArg

/-- blockArg2Name: the BlockArg wraps an UnresolvedIdent (ENFORCEd); fall back
to the synthesized name on the unreachable shapes. -/
def blockArg2Name : Expr → Name
  | .blockArgE _ (.ident _ _ n) => n
  | _ => Names.blkArg

/-- isIVarAssign: an Assign whose left-hand side is an instance-variable
UnresolvedIdent. -/
def isIVarAssign : Expr → Bool
  | .assignE _ (.ident _ .instanceK _) _ => true
  | _ => false

/-- validateRBIBody: in interface-only files a method body must be empty or
consist solely of instance-variable assignments; anything else is diagnosed
CodeInRBI.  The body is returned unchanged in all cases. -/
def validateRBIBody (ctx : Ctx) (body : Expr) : Expr × List Diag :=
  if !body.loc.present then (body, [])
  else if !ctx.rbiFiles body.loc.file then (body, [])
  else
    match body with
    | .emptyTree => (body, [])
    | .assignE _ _ _ =>
      if !isIVarAssign body then (body, [.codeInRBI body.loc]) else (body, [])
    | .insSeqE _ stats expr =>
      let ds1 := stats.foldl
        (fun acc stat => if !isIVarAssign stat then acc ++ [Diag.codeInRBI stat.loc] else acc) []
      let ds2 := if !isIVarAssign expr then [Diag.codeInRBI expr.loc] else []
      (body, ds1 ++ ds2)
    | _ => (body, [.codeInRBI body.loc])

end Sorbet

namespace Sorbet

/-- Support lemma for termination: a filtered list is no larger than the
original. -/
theorem sizeOf_filter_le {α : Type} [SizeOf α] (p : α → Bool) (l : List α) :
    sizeOf (l.filter p) ≤ sizeOf l := by
  induction l with
  | nil => simp [List.filter]
  | cons a l ih =>
    simp only [List.filter]
    cases p a <;> simp <;> omega

/-- Support lemma for termination: the operand of a BlockPass is smaller than
the node. -/
theorem PNode.blockPassArg_sizeOf {p : PNode} {b : PNode}
    (h : p.blockPassArg = some (some b)) : sizeOf b < sizeOf p := by
  cases p <;> simp [PNode.blockPassArg] at h
  subst h
  simp
  omega

/-- Support lemma for termination: a block extracted from an argument list is
smaller than the list. -/
theorem extractBlockPass_sizeOf : ∀ {ps : List PNode} {b : PNode},
    extractBlockPass ps = some (some b) → sizeOf b < sizeOf ps := by
  intro ps
  induction ps with
  | nil => intro b h; simp [extractBlockPass] at h
  | cons p rest ih =>
    intro b h
    simp only [extractBlockPass] at h
    cases hb : p.blockPassArg with
    | none =>
      rw [hb] at h
      have := ih h
      simp only [List.cons.sizeOf_spec]
      omega
    | some x =>
      rw [hb] at h
      cases hr : extractBlockPass rest with
      | none =>
        rw [hr] at h
        simp [Option.orElse] at h
        subst h
        have := PNode.blockPassArg_sizeOf hb
        simp only [List.cons.sizeOf_spec]
        omega
      | some y =>
        rw [hr] at h
        simp [Option.orElse] at h
        subst h
        have := ih hr
        simp only [List.cons.sizeOf_spec]
        omega

end Sorbet

namespace Sorbet

/-- The textual preprocessing of integer literals: record whether a ~ marker
is present and strip every ~ and every _ separator (absl::StrReplaceAll on
single-character patterns). -/
def stripInt (val : String) : Bool × String :=
  let hasTilde := val.data.contains '~'
  let withoutTilde := if hasTilde then String.mk (val.data.filter (fun ch => ch ≠ '~')) else val
  let hasUnderscore := withoutTilde.data.contains '_'
  let withoutUnderscores :=
    if hasUnderscore then String.mk (withoutTilde.data.filter (fun ch => ch ≠ '_'))
    else withoutTilde
  (hasTilde, withoutUnderscores)

set_option maxHeartbeats 2000000 in
mutual

/-- node2TreeImpl: the recursive parse-node to TAST translator, one arm per
parse-node variant of the embedded grammar, translated from Desugar.cc.  The
fresh-name counter is threaded explicitly; the returned diagnostic list
collects the beginError calls of this subtree in emission order. -/
def node2TreeImpl (ctx : Ctx) (p : PNode) (c : Nat) : Expr × Nat × List Diag :=
  match p with
  | .lvar loc name => (MK.Local loc name, c, [])
  | .lvarLhs loc name => (MK.Local loc name, c, [])
  | .ivarLhs loc name => (Expr.ident loc .instanceK name, c, [])
  | .selfN loc => (MK.Self loc, c, [])
  | .nilN loc => (MK.Nil loc, c, [])
  | .trueN loc => (MK.True_ loc, c, [])
  | .falseN loc => (MK.False_ loc, c, [])
  | .symbolN loc val => (MK.Symbol loc val, c, [])
  | .integerN loc val =>
    -- complemented literals: strip tildes and underscores, then parse; on
    -- failure the value defaults to 0 with an IntegerOutOfRange diagnostic;
    -- the complement marker is applied to whatever value resulted
    let st := stripInt val
    (match simpleAtoi st.2 with
     | some v => (MK.Int_ loc (if st.1 then intComplement v else v), c, [])
     | none => (MK.Int_ loc (if st.1 then intComplement 0 else 0), c, [.integerOutOfRange loc]))
  | .constN loc scope name =>
    let r := dsgOpt ctx scope c
    (MK.UnresolvedConstant loc r.1 name, r.2.1, r.2.2)
  | .beginN loc stmts =>
    (match stmts with
     | [] => (MK.Nil loc, c, [])
     | s0 :: srest =>
       let r := desugarStmts ctx (s0 :: srest) c
       (MK.InsSeq loc r.1 r.2.1, r.2.2.1, r.2.2.2))
  | .sendN loc recv method args =>
    let r := dsgOpt ctx recv c
    -- an implicit receiver becomes Self with a zero-length Loc and sets
    -- the PRIVATE_OK flag
    let recPriv : Expr × Bool :=
      if r.1.isEmptyTree then (MK.Self loc.copyWithZeroLength, true) else (r.1, false)
    let r2 := desugarSendCore ctx loc recPriv.1 recPriv.2 method args r.2.1
    (r2.1, r2.2.1, r.2.2 ++ r2.2.2)
  | .csendN loc recv method args =>
    let c1 := c + 1
    let tempRecv := Name.unique .desugar Names.assignTemp c1
    let recvLoc := recv.loc
    -- desugar-produced nodes get zero-length Locs so the IDE ignores them
    let zLoc := loc.copyWithZeroLength
    let zRecvLoc := recvLoc.copyWithZeroLength
    let r := node2TreeImpl ctx recv c1
    let assgn := MK.AssignLocal zRecvLoc tempRecv r.1
    -- NOTE: this desugars into a call to == nil, not a direct nil test
    let cond := MK.Send1 zLoc (MK.Local zRecvLoc tempRecv) Names.eqeq (MK.Nil zLoc)
    -- the synthesized parser::Send(loc, LVar(recvLoc, tempRecv), method, args)
    -- has a Local receiver, so its Send arm takes the explicit-receiver path
    let r2 := desugarSendCore ctx loc (MK.Local recvLoc tempRecv) false method args r.2.1
    let iff := MK.If zLoc cond (MK.Nil zLoc) r2.1
    (MK.InsSeq1 zLoc assgn iff, r2.2.1, r.2.2 ++ r2.2.2)
  | .blockPassN _ _ =>
    -- the Send arm consumes BlockPass nodes; reaching this arm raises in the
    -- source (modelled as an empty placeholder)
    (MK.EmptyTree, c, [])
  | .masgnN loc _ mlhs rhs =>
    let r := node2TreeImpl ctx rhs c
    let r2 := desugarMlhs ctx loc mlhs r.1 r.2.1
    (r2.1, r2.2.1, r.2.2 ++ r2.2.2)
  | .mlhsN _ _ =>
    -- a bare Mlhs outside Masgn or an argument list hits the Unimplemented
    -- catch-all in the source (modelled as an empty placeholder)
    (MK.EmptyTree, c, [])
  | .splatLhsN _ _ =>
    -- a bare SplatLhs outside an Mlhs hits the Unimplemented catch-all in the
    -- source (modelled as an empty placeholder)
    (MK.EmptyTree, c, [])
  | .restargN loc nameLoc name => (MK.RestArg loc (MK.Local nameLoc name), c, [])
  | .argN loc name => (MK.Local loc name, c, [])
  | .blockargN loc name => (MK.BlockArg loc (MK.Local loc name), c, [])
  | .caseN loc cond whens els =>
    (match cond with
     | some cnode =>
       let cloc := cnode.loc
       let c1 := c + 1
       let temp := Name.unique .desugar Names.assignTemp c1
       let r := node2TreeImpl ctx cnode c1
       let assign := MK.AssignLocal cloc temp r.1
       let r2 := dsgOpt ctx els r.2.1
       let r3 := caseWhens ctx (some (cloc, temp)) whens r2.1 r2.2.1
       (MK.InsSeq1 loc assign r3.1, r3.2.1, r.2.2 ++ r2.2.2 ++ r3.2.2)
     | none =>
       let r2 := dsgOpt ctx els c
       let r3 := caseWhens ctx none whens r2.1 r2.2.1
       (r3.1, r3.2.1, r2.2.2 ++ r3.2.2))
  | .returnN loc exprs =>
    if exprs.length > 1 then
      let r := multiLoop ctx loc exprs c
      (MK.Return loc (MK.Array loc r.1), r.2.1, r.2.2)
    else
      (match exprs with
       | [e] =>
         if e.isBlockPass then (MK.Break loc MK.EmptyTree, c, [.unsupportedNode loc])
         else
           let r := node2TreeImpl ctx e c
           (MK.Return loc r.1, r.2.1, r.2.2)
       | _ => (MK.Return loc MK.EmptyTree, c, []))
  | .nextN loc exprs =>
    if exprs.length > 1 then
      let r := multiLoop ctx loc exprs c
      (MK.Next loc (MK.Array loc r.1), r.2.1, r.2.2)
    else
      (match exprs with
       | [e] =>
         if e.isBlockPass then (MK.Break loc MK.EmptyTree, c, [.unsupportedNode loc])
         else
           let r := node2TreeImpl ctx e c
           (MK.Next loc r.1, r.2.1, r.2.2)
       | _ => (MK.Next loc MK.EmptyTree, c, []))
  | .defMethodN loc declLoc name args body =>
    buildMethod ctx loc declLoc name args body false c
  | .defSN loc declLoc singleton name args body =>
    (match singleton with
     | .selfN _ => buildMethod ctx loc declLoc name args body true c
     | s => (MK.EmptyTree, c, [.invalidSingletonDef s.loc]))
termination_by 5 * sizeOf p
decreasing_by all_goals (simp_wf; try omega)

/-- Desugar an optional parse node; a null node becomes EmptyTree. -/
def dsgOpt (ctx : Ctx) (p : Option PNode) (c : Nat) : Expr × Nat × List Diag :=
  match p with
  | none => (MK.EmptyTree, c, [])
  | some p => node2TreeImpl ctx p c
termination_by 5 * sizeOf p
decreasing_by all_goals (simp_wf; try omega)

/-- Desugar a list of parse nodes in order. -/
def dsgList (ctx : Ctx) (ps : List PNode) (c : Nat) : List Expr × Nat × List Diag :=
  match ps with
  | [] => ([], c, [])
  | p :: rest =>
    let r := node2TreeImpl ctx p c
    let r2 := dsgList ctx rest r.2.1
    (r.1 :: r2.1, r2.2.1, r.2.2 ++ r2.2.2)

termination_by 5 * sizeOf ps
decreasing_by all_goals (simp_wf; try omega)

/-- The statement loop of the Begin arm: all statements but the last become
InsSeq statements; the last becomes the sequence expression. -/
def desugarStmts (ctx : Ctx) (stmts : List PNode) (c : Nat) :
    List Expr × Expr × Nat × List Diag :=
  match stmts with
  | [] => ([], MK.EmptyTree, c, [])
  | [x] =>
    let r := node2TreeImpl ctx x c
    ([], r.1, r.2.1, r.2.2)
  | x :: rest =>
    let r := node2TreeImpl ctx x c
    let r2 := desugarStmts ctx rest r.2.1
    (r.1 :: r2.1, r2.2.1, r2.2.2.1, r.2.2 ++ r2.2.2.2)

termination_by 5 * sizeOf stmts
decreasing_by all_goals (simp_wf; try omega)

/-- The shared body of the Send arm, applied to the already-desugared receiver
(the CSend arm reaches it through its synthesized Send node): desugars the
non-BlockPass arguments in order, hands a BlockPass operand to the symbol-proc
expansion or the Magic.callWithBlock rewrite, and finally applies the
block_given? rewrite when applicable. -/
def desugarSendCore (ctx : Ctx) (loc : Loc) (recE : Expr) (priv : Bool) (method : Name)
    (args : List PNode) (c : Nat) : Expr × Nat × List Diag :=
  let rargs := dsgList ctx (args.filter (fun a => !a.isBlockPass)) c
  let core : Expr × Nat × List Diag :=
    match hbp : extractBlockPass args with
    | none => (MK.Send loc recE method rargs.1 priv none, rargs.2.1, [])
    | some none => (MK.Send loc recE method rargs.1 priv none, rargs.2.1, [])
    | some (some bnode) =>
      let rb := node2TreeImpl ctx bnode rargs.2.1
      if rb.1.isSymbolLit then
        let sp := symbol2Proc rb.1 rb.1.symValue rb.2.1
        (MK.Send loc recE method rargs.1 priv (some sp.1), sp.2, rb.2.2)
      else
        let methodLit := MK.Symbol loc method
        (MK.Send loc (MK.Constant loc .magic) Names.callWithBlock
          ([recE, methodLit, rb.1] ++ rargs.1) false none, rb.2.1, rb.2.2)
  let wrapped :=
    if method = Names.blockGivenP && ctx.enclosingBlockArg.isSome then
      MK.If loc (MK.Local loc (ctx.enclosingBlockArg.getD Names.blkArg)) core.1 (MK.False_ loc)
    else core.1
  (wrapped, core.2.1, rargs.2.2 ++ core.2.2)
termination_by 5 * sizeOf args + 2
decreasing_by
  all_goals simp_wf
  all_goals first
    | omega
    | (have hf := sizeOf_filter_le (fun a => !PNode.isBlockPass a) args; omega)
    | (have hx := extractBlockPass_sizeOf hbp; omega)

/-- One element of the desugarMlhs loop (the body of the for over lhs->exprs
in Desugar.cc). -/
def mlhsStep (ctx : Ctx) (loc : Loc) (tempExpanded : Name) (total : Nat) (p : PNode)
    (s : MlhsAcc) : MlhsAcc :=
  match p with
  | .splatLhsN _ var =>
    let r := dsgOpt ctx var s.ctr
    let lh := r.1
    let left : Int := s.i
    let right : Int := (total : Int) - left - 1
    if lh.isEmptyTree then
      { s with i := -right, didSplat := true, ctr := r.2.1, diags := s.diags ++ r.2.2 }
    else
      -- the range is exclusive unless there are no post-splat targets, in
      -- which case right is coerced to 1 to keep the range non-empty
      let rightExcl : Int × Expr :=
        if right = 0 then (1, MK.False_ lh.loc) else (right, MK.True_ lh.loc)
      let lhloc := lh.loc
      let index := MK.Send3 lhloc (MK.Constant lhloc .rangeCls) Names.newName
        (MK.Int_ lhloc left) (MK.Int_ lhloc (-rightExcl.1)) rightExcl.2
      let stat := MK.Assign lhloc lh
        (MK.Send1 loc (MK.Local loc tempExpanded) Names.slice index)
      { s with stats := s.stats ++ [stat], i := -rightExcl.1, didSplat := true,
               ctr := r.2.1, diags := s.diags ++ r.2.2 }
  | .mlhsN mloc mexprs =>
    let before1 := if s.didSplat then s.before else s.before + 1
    let after1 := if s.didSplat then s.after + 1 else s.after
    let val := MK.Send1 loc (MK.Local loc tempExpanded) Names.squareBrackets (MK.Int_ loc s.i)
    let r := desugarMlhs ctx mloc mexprs val s.ctr
    { s with stats := s.stats ++ [r.1], i := s.i + 1, before := before1, after := after1,
             ctr := r.2.1, diags := s.diags ++ r.2.2 }
  | other =>
    let before1 := if s.didSplat then s.before else s.before + 1
    let after1 := if s.didSplat then s.after + 1 else s.after
    let val := MK.Send1 loc (MK.Local loc tempExpanded) Names.squareBrackets (MK.Int_ loc s.i)
    let r := node2TreeImpl ctx other s.ctr
    -- a RestArg target is diagnosed and unwrapped to its inner expression
    let unwrapped : Expr × List Diag :=
      match r.1 with
      | .restArgE rloc inner => (inner, [.unsupportedRestArgsDestructure rloc])
      | e => (e, [])
    let lh := unwrapped.1
    let stat := MK.Assign lh.loc lh val
    { s with stats := s.stats ++ [stat], i := s.i + 1, before := before1, after := after1,
             ctr := r.2.1, diags := s.diags ++ r.2.2 ++ unwrapped.2 }
termination_by 5 * sizeOf p + 1
decreasing_by all_goals (simp_wf; try omega)

/-- The element loop of desugarMlhs. -/
def mlhsLoop (ctx : Ctx) (loc : Loc) (tempExpanded : Name) (total : Nat) (ps : List PNode)
    (s : MlhsAcc) : MlhsAcc :=
  match ps with
  | [] => s
  | p :: rest => mlhsLoop ctx loc tempExpanded total rest (mlhsStep ctx loc tempExpanded total p s)
termination_by 5 * sizeOf ps
decreasing_by all_goals (simp_wf; try omega)

/-- desugarMlhs: multiple assignment of the Mlhs target list against an
already-desugared right-hand side.  The sequence binds the whole rhs to a
fresh temporary, expands it with Magic.expandSplat, emits one assignment per
target, and evaluates to the rhs temporary. -/
def desugarMlhs (ctx : Ctx) (loc : Loc) (exprs : List PNode) (rhs : Expr) (c : Nat) :
    Expr × Nat × List Diag :=
  let c1 := c + 1
  let tempRhs := Name.unique .desugar Names.assignTemp c1
  let c2 := c1 + 1
  let tempExpanded := Name.unique .desugar Names.assignTemp c2
  let s := mlhsLoop ctx loc tempExpanded exprs.length exprs
    { stats := [], i := 0, before := 0, after := 0, didSplat := false, ctr := c2, diags := [] }
  let expanded := MK.Send3 loc (MK.Constant loc .magic) Names.expandSplat
    (MK.Local loc tempRhs) (MK.Int_ loc s.before) (MK.Int_ loc s.after)
  -- the whole sequence evaluates to the entire right-hand side, not any
  -- individual component
  (MK.InsSeq loc
    (MK.AssignLocal loc tempRhs rhs :: MK.AssignLocal loc tempExpanded expanded :: s.stats)
    (MK.Local loc tempRhs), s.ctr, s.diags)
termination_by 5 * sizeOf exprs + 2
decreasing_by all_goals (simp_wf; try omega)

/-- The argument loop of desugarArgs: compound (Mlhs) parameters are replaced
by a fresh destructureArg local whose destructuring (a synthesized Masgn of
the Mlhs against that local) is prepended to the method body. -/
def argsLoop (ctx : Ctx) (ps : List PNode) (c : Nat) :
    List Expr × List Expr × Nat × List Diag :=
  match ps with
  | [] => ([], [], c, [])
  | p :: rest =>
    (match p with
     | .mlhsN mloc mexprs =>
       let c1 := c + 1
       let temporary := Name.unique .desugar Names.destructureArg c1
       -- the synthesized Masgn(arg->loc, arg, LVar(arg->loc, temporary))
       -- desugars to desugarMlhs at the arg loc against that local
       let r := desugarMlhs ctx mloc mexprs (MK.Local mloc temporary) c1
       let r2 := argsLoop ctx rest r.2.1
       (MK.Local mloc temporary :: r2.1, r.1 :: r2.2.1, r2.2.2.1, r.2.2 ++ r2.2.2.2)
     | other =>
       let r := node2TreeImpl ctx other c
       let r2 := argsLoop ctx rest r.2.1
       (r.1 :: r2.1, r2.2.1, r2.2.2.1, r.2.2 ++ r2.2.2.2))
termination_by 5 * sizeOf ps
decreasing_by all_goals (simp_wf; try omega)

/-- desugarBody: desugar the method body and prepend the destructuring
assignments of compound parameters, if any. -/
def desugarBody (ctx : Ctx) (loc : Loc) (body : Option PNode) (destructures : List Expr)
    (c : Nat) : Expr × Nat × List Diag :=
  let r := dsgOpt ctx body c
  if destructures.isEmpty then r
  else (MK.InsSeq loc destructures r.1, r.2.1, r.2.2)
termination_by 5 * sizeOf body + 2
decreasing_by all_goals (simp_wf; try omega)

/-- buildMethod: desugar a method definition.  The per-scope unique counter is
reset to 1 on entry (the reset counter is a fresh local in the source, so the
caller counter is untouched); the argument list is normalized to end in a
BlockArg, synthesizing one named blkArg with a none Loc when absent; the body
is desugared with the block-argument name recorded in the context, and RBI
bodies are validated. -/
def buildMethod (ctx : Ctx) (loc declLoc : Loc) (name : Name) (argnode : Option (List PNode))
    (body : Option PNode) (isSelf : Bool) (c : Nat) : Expr × Nat × List Diag :=
  let ra :=
    match argnode with
    | none => (([] : List Expr), ([] : List Expr), 1, ([] : List Diag))
    | some oargs => argsLoop ctx oargs 1
  let args0 := ra.1
  let needSynth := args0.isEmpty || !(args0.getLast?.elim false Expr.isBlockArg)
  let blkLoc := Loc.noneL loc.file
  let args :=
    if needSynth then args0 ++ [MK.BlockArg blkLoc (MK.Local blkLoc Names.blkArg)] else args0
  let enclosing := blockArg2Name ((args.getLast?).getD MK.EmptyTree)
  let ctx2 : Ctx := { ctx with enclosingBlockArg := some enclosing }
  let rb := desugarBody ctx2 loc body ra.2.1 ra.2.2.1
  let rv := validateRBIBody ctx rb.1
  (MK.Method loc declLoc name args rv.1 isSelf, c, ra.2.2.2 ++ rb.2.2 ++ rv.2)
termination_by 5 * (sizeOf argnode + sizeOf body) + 4
decreasing_by all_goals (simp_wf; try omega)

/-- The when loop of the Case arm: the source iterates the when clauses in
reverse, accumulating the else branch inside out, so the recursion processes
the tail first. -/
def caseWhens (ctx : Ctx) (tempInfo : Option (Loc × Name))
    (whens : List (Loc × List PNode × Option PNode)) (acc : Expr) (c : Nat) :
    Expr × Nat × List Diag :=
  match whens with
  | [] => (acc, c, [])
  | (wloc, patterns, wbody) :: rest =>
    let r := caseWhens ctx tempInfo rest acc c
    let rc := casePatterns ctx tempInfo patterns none r.2.1
    let rb := dsgOpt ctx wbody rc.2.1
    (MK.If wloc (rc.1.getD MK.EmptyTree) rb.1 r.1, rb.2.1, r.2.2 ++ rc.2.2 ++ rb.2.2)
termination_by 5 * sizeOf whens
decreasing_by all_goals (simp_wf; try omega)

/-- The pattern loop of one when clause: with a scrutinee temporary each
pattern p becomes the test p === temp; successive tests are OR-combined as
If(test, true, previous). -/
def casePatterns (ctx : Ctx) (tempInfo : Option (Loc × Name)) (patterns : List PNode)
    (condAcc : Option Expr) (c : Nat) : Option Expr × Nat × List Diag :=
  match patterns with
  | [] => (condAcc, c, [])
  | pat :: rest =>
    let r := node2TreeImpl ctx pat c
    let test :=
      match tempInfo with
      | some cl => MK.Send1 r.1.loc r.1 Names.tripleEq (MK.Local cl.1 cl.2)
      | none => r.1
    let condAcc1 :=
      match condAcc with
      | none => some test
      | some prev => some (MK.If test.loc test (MK.True_ test.loc) prev)
    let r2 := casePatterns ctx tempInfo rest condAcc1 r.2.1
    (r2.1, r2.2.1, r.2.2 ++ r2.2.2)

termination_by 5 * sizeOf patterns
decreasing_by all_goals (simp_wf; try omega)

/-- The multi-operand loop of the Return, Break and Next arms: BlockPass
operands are diagnosed at the construct location and skipped; the rest are
desugared in order. -/
def multiLoop (ctx : Ctx) (retLoc : Loc) (exprs : List PNode) (c : Nat) :
    List Expr × Nat × List Diag :=
  match exprs with
  | [] => ([], c, [])
  | e :: rest =>
    if e.isBlockPass then
      let r := multiLoop ctx retLoc rest c
      (r.1, r.2.1, Diag.unsupportedNode retLoc :: r.2.2)
    else
      let r := node2TreeImpl ctx e c
      let r2 := multiLoop ctx retLoc rest r.2.1
      (r.1 :: r2.1, r2.2.1, r.2.2 ++ r2.2.2)
termination_by 5 * sizeOf exprs
decreasing_by all_goals (simp_wf; try omega)

end

end Sorbet

namespace Sorbet

/-- desugarArgs: the argument-list desugaring of buildMethod, as a standalone
function of the optional Args node (null argument nodes contribute nothing).
buildMethod runs it with the freshly reset per-scope counter 1. -/
def desugarArgs (ctx : Ctx) (argnode : Option (List PNode)) (c : Nat) :
    List Expr × List Expr × Nat × List Diag :=
  match argnode with
  | none => ([], [], c, [])
  | some oargs => argsLoop ctx oargs c

/-- liftTopLevel: wrap the desugared compilation unit in a synthetic ClassDef
whose symbol is the root scope, with an empty name expression, an empty
ancestor list and Class kind; an InsSeq unit is flattened so its statements
plus its expression become separate body entries. -/
def liftTopLevel (loc : Loc) (what : Expr) : Expr :=
  match what with
  | .insSeqE _ stats e =>
    Expr.classDef loc loc .root MK.EmptyTree [] (stats ++ [e]) false
  | w => Expr.classDef loc loc .root MK.EmptyTree [] [w] false

/-- Modelled from the spec: the verifier (C6, ast/verifier, outside src/) is a
tree walk that only asserts structural invariants and aborts the unit on
violation; on success it returns the tree unchanged. -/
def verifierRun (e : Expr) : Expr := e

/-- node2Tree: desugar the compilation unit, lift it into the synthetic root
ClassDef and run the verifier. -/
def node2Tree (ctx : Ctx) (what : PNode) (c : Nat) : Expr × Nat × List Diag :=
  let loc := what.loc
  let r := node2TreeImpl ctx what c
  (verifierRun (liftTopLevel loc r.1), r.2.1, r.2.2)

/-- Whether a ClassDef is a T::Enum subclass (rewriter/TEnum.cc isTEnum): a
Class whose first ancestor is the constant path T::Enum, where the T scope is
either empty or the resolved root symbol. -/
def isTEnum (klass : Expr) : Bool :=
  match klass with
  | .classDef _ _ _ _ ancestors _ isModule =>
    if isModule then false
    else
      match ancestors with
      | [] => false
      | front :: _ =>
        match front with
        | .unresolvedConst _ scope cnst =>
          if cnst ≠ Names.cEnum then false
          else
            match scope with
            | .unresolvedConst _ tscope tcnst =>
              if tcnst ≠ Names.cT then false
              else
                match tscope with
                | .emptyTree => true
                | .constantLit _ sym => sym = Sym.root
                | _ => false
            | _ => false
        | _ => false
  | _ => false

/-- asEnumsDo (body part): the body of the block of a send of the method
enums that carries a block. -/
def asEnumsDoBody (stat : Expr) : Option Expr :=
  match stat with
  | .sendE _ _ fn _ _ (some (.blockE _ _ body)) =>
    if fn = Names.enums then some body else none
  | _ => none

/-- Where a statement of a T::Enum class body was found relative to the
enums-do block. -/
inductive FromWhere where
  | inside
  | outside
deriving DecidableEq, Repr

/-- badConst: emit TEnumConstNotEnumValue at the statement location and return
no replacement statements. -/
def badConst (headerLoc : Loc) : List Expr × List Diag :=
  ([], [.tenumConstNotEnumValue headerLoc])

/-- The chain of checks processStat applies to a T.let right-hand side: the
receiver must be an unresolved constant, there must be exactly two arguments,
and the first argument must be a Send recognized as the self-new intrinsic
call. -/
def letShapeOk (srecv : Expr) (sargs : List Expr) : Bool :=
  match srecv with
  | .unresolvedConst _ _ _ =>
    match sargs with
    | [arg0, _] =>
      (match arg0 with
       | .sendE _ _ _ _ _ _ => MK.isSelfNew arg0
       | _ => false)
    | _ => false
  | _ => false

/-- processStat (rewriter/TEnum.cc): recognize a top-level constant assignment
of an enum-variant value inside a T::Enum class body and replace it by the
variant singleton class plus the re-typed assignment; a constant assignment
whose right-hand side has any other shape is diagnosed TEnumConstNotEnumValue;
non-assignments and non-constant assignments are left alone. -/
def processStat (klassName : Expr) (stat : Expr) (fromWhere : FromWhere) :
    List Expr × List Diag :=
  match stat with
  | .assignE aloc lhs rhs =>
    match lhs with
    | .unresolvedConst lloc lscope lcnst =>
      let statLoc := aloc
      match rhs with
      | .sendE _ srecv sfn sargs _ _ =>
        if sfn ≠ Names.selfNew ∧ sfn ≠ Names.letName then badConst statLoc
        else if sfn = Names.selfNew ∧ ¬ MK.isMagicClass srecv then badConst statLoc
        else
          let letOk : Bool :=
            if sfn = Names.letName then letShapeOk srecv sargs
            else true
          if ¬ letOk then badConst statLoc
          else
            let outsideDiag : List Diag :=
              if fromWhere ≠ FromWhere.inside then [.tenumOutsideEnumsDo statLoc] else []
            let name := Name.constant (Name.unique .tenum lcnst 1)
            let classCnst := MK.UnresolvedConstant lloc MK.EmptyTree name
            let parent := [klassName]
            let classRhs :=
              [MK.Send1 statLoc (MK.Self statLoc) Names.includeName
                 (MK.Constant statLoc .singletonCls),
               MK.Send0 statLoc (MK.Self statLoc) Names.declareFinal]
            let classDef := MK.Class statLoc statLoc classCnst parent classRhs
            let singletonAsgn :=
              MK.Assign statLoc (Expr.unresolvedConst lloc lscope lcnst)
                (MK.Send2 statLoc (MK.Constant statLoc .tCls) Names.letName
                  (MK.Send0 statLoc classCnst Names.instanceName) classCnst)
            ([classDef, singletonAsgn], outsideDiag)
      | _ => badConst statLoc
    | _ => ([], [])
  | _ => ([], [])

/-- collectNewStats: append the replacement statements to the class body, or
the original statement when processStat produced none. -/
def collectNewStats (klassName : Expr) (acc : List Expr) (stat : Expr)
    (fromWhere : FromWhere) : List Expr × List Diag :=
  let r := processStat klassName stat fromWhere
  if r.1.isEmpty then (acc ++ [stat], r.2) else (acc ++ r.1, r.2)

/-- The statement fold of TEnum::run over the saved class body. -/
def tenumFold (klassName : Expr) (stats : List Expr) (acc : List Expr) :
    List Expr × List Diag :=
  match stats with
  | [] => (acc, [])
  | stat :: rest =>
    match asEnumsDoBody stat with
    | some body =>
      let r1 : List Expr × List Diag :=
        match body with
        | .insSeqE _ istats iexpr =>
          let ri := istats.foldl
            (fun (p : List Expr × List Diag) istat =>
              let rc := collectNewStats klassName p.1 istat .inside
              (rc.1, p.2 ++ rc.2)) (acc, [])
          let rl := collectNewStats klassName ri.1 iexpr .inside
          (rl.1, ri.2 ++ rl.2)
        | b =>
          let rc := collectNewStats klassName acc b .inside
          (rc.1, rc.2)
      let r2 := tenumFold klassName rest r1.1
      (r2.1, r1.2 ++ r2.2)
    | none =>
      let rc := collectNewStats klassName acc stat .outside
      let r2 := tenumFold klassName rest rc.1
      (r2.1, rc.2 ++ r2.2)

/-- TEnum::run: skip under autogen and for non-T::Enum classes; otherwise
prepend extend T::Helpers, abstract! and sealed! to the body and process each
saved statement, flattening enums-do blocks. -/
def tenumRun (runningUnderAutogen : Bool) (klass : Expr) : Expr × List Diag :=
  if runningUnderAutogen then (klass, [])
  else if ¬ isTEnum klass then (klass, [])
  else
    match klass with
    | .classDef loc declLoc sym name ancestors rhs isModule =>
      let l := declLoc
      let header :=
        [MK.Send1 l (MK.Self l) Names.extendName (MK.Constant l .tHelpers),
         MK.Send0 l (MK.Self l) Names.declareAbstract,
         MK.Send0 l (MK.Self l) Names.declareSealed]
      let r := tenumFold name rhs header
      (Expr.classDef loc declLoc sym name ancestors r.1 isModule, r.2)
    | k => (k, [])

/-- createConstAssign (rewriter/Minitest.cc ConstantMover): the hoisted outer
declaration of a moved constant: T.let(T.unsafe(nil), Type) when the original
right-hand side was a two-argument send of the method let (preserving the
second argument), T.unsafe(nil) otherwise. -/
def createConstAssign (aloc : Loc) (lhs rhs : Expr) : Expr :=
  let unsafeNil := MK.Unsafe aloc (MK.Nil aloc)
  match rhs with
  | .sendE _ _ fn args _ _ =>
    match args with
    | [_, a1] =>
      if fn = Names.letName then MK.Assign aloc lhs (MK.Let aloc unsafeNil a1)
      else MK.Assign aloc lhs unsafeNil
    | _ => MK.Assign aloc lhs unsafeNil
  | _ => MK.Assign aloc lhs unsafeNil

/-- postTransformAssign (rewriter/Minitest.cc ConstantMover): a constant
assignment whose right-hand side is itself an unresolved constant literal is
moved whole and replaced by EmptyTree; any other constant assignment is
replaced by Module.const_set(:Name, rhs) with the hoisted declaration from
createConstAssign; non-constant assignments are left alone.  Returns the
replacement and the statements appended to movedConstants. -/
def postTransformAssign (aloc : Loc) (lhs rhs : Expr) : Expr × List Expr :=
  match lhs with
  | .unresolvedConst cloc _ ccnst =>
    match rhs with
    | .unresolvedConst _ _ _ => (MK.EmptyTree, [Expr.assignE aloc lhs rhs])
    | _ =>
      let nameSym := MK.Symbol cloc ccnst
      let moved := createConstAssign aloc lhs rhs
      (MK.Send2 aloc (MK.Constant aloc .moduleCls) Names.constSet nameSym rhs, [moved])
  | _ => (Expr.assignE aloc lhs rhs, [])

end Sorbet

namespace Sorbet

/-- The default desugar context used by concrete instantiations: no enclosing
block argument and no interface-only files. -/
def ctx0 : Ctx := { enclosingBlockArg := none, rbiFiles := fun _ => false }

/-- C1: for every parse tree on which desugar succeeds, the root of the
returned TAST is a single ClassDef whose symbol is the root scope, of Class
kind, with an empty name expression and an empty (EmptyTree) ancestor list;
when the desugared compilation unit is an InsSeq, its statements plus its
trailing expression become separate entries of the class body, in order. -/
theorem desugar_top_level_classdef (ctx : Ctx) (p : PNode) (c : Nat) :
    (node2Tree ctx p c).1 =
      Expr.classDef p.loc p.loc Sym.root MK.EmptyTree []
        (match (node2TreeImpl ctx p c).1 with
         | .insSeqE _ stats e => stats ++ [e]
         | u => [u]) false := by
  unfold node2Tree verifierRun liftTopLevel
  rcases h : node2TreeImpl ctx p c with ⟨e, c1, ds⟩
  cases e <;> simp

/-- C4: a safe-navigation call desugars to an instruction sequence that first
assigns a fresh temporary the receiver value and then evaluates an If whose
guard is a Send of the method == with the single argument nil (not a direct
nil test), whose then branch is nil, and whose else branch is the desugar of
the synthesized call of the method on the temporary. -/
theorem csend_safe_navigation (ctx : Ctx) (loc : Loc) (recv : PNode) (m : Name)
    (args : List PNode) (c : Nat) :
    node2TreeImpl ctx (.csendN loc recv m args) c =
      (let c1 := c + 1
       let t := Name.unique .desugar Names.assignTemp c1
       let zLoc := loc.copyWithZeroLength
       let zRecvLoc := recv.loc.copyWithZeroLength
       let r := node2TreeImpl ctx recv c1
       let rs := node2TreeImpl ctx (.sendN loc (some (.lvar recv.loc t)) m args) r.2.1
       (Expr.insSeqE zLoc [Expr.assignE zRecvLoc (MK.Local zRecvLoc t) r.1]
          (Expr.ifE zLoc
            (Expr.sendE zLoc (MK.Local zRecvLoc t) Names.eqeq [MK.Nil zLoc] false none)
            (MK.Nil zLoc) rs.1),
        rs.2.1, r.2.2 ++ rs.2.2)) := by
  simp [node2TreeImpl, dsgOpt, MK.Local, Expr.isEmptyTree, MK.AssignLocal, MK.Send1,
    MK.InsSeq1, MK.If, MK.Nil]


/-- C8 (amended): an integer literal whose stripped textual form fails int64
decoding (in particular every out-of-range numeral) produces an
IntegerOutOfRange diagnostic, and the resulting Literal carries the value 0,
except that a literal with a ~ marker carries the complement of 0, that is
-1. -/
theorem integer_out_of_range (ctx : Ctx) (loc : Loc) (val : String) (c : Nat)
    (h : simpleAtoi (stripInt val).2 = none) :
    node2TreeImpl ctx (.integerN loc val) c =
      (Expr.lit loc (.int (if (stripInt val).1 then -1 else 0)), c, [.integerOutOfRange loc]) := by
  rw [node2TreeImpl.eq_def]
  simp only [h, MK.Int_, intComplement]
  norm_num

/-- C8 witness: a concrete out-of-range numeral without a marker yields the
literal 0 with the diagnostic. -/
theorem integer_out_of_range_witness :
    node2TreeImpl ctx0 (.integerN (.range 0 0 3) "9999999999999999999999") 0 =
      (Expr.lit (.range 0 0 3) (.int 0), 0, [.integerOutOfRange (.range 0 0 3)]) := by
  rw [integer_out_of_range _ _ _ _ (by simp [stripInt, simpleAtoi])]
  simp [stripInt]

/-- C8 counterexample: the literal ~9999999999999999999999 (stripped form out
of int64 range, with a complement marker) yields the value -1, not the value
0 the claim states. -/
theorem integer_out_of_range_tilde_counterexample :
    (node2TreeImpl ctx0 (.integerN (.range 0 0 4) "~9999999999999999999999") 0).1
      = Expr.lit (.range 0 0 4) (.int (-1))
    ∧ ((-1 : Int) ≠ 0)
    ∧ (node2TreeImpl ctx0 (.integerN (.range 0 0 4) "~9999999999999999999999") 0).2.2
        = [.integerOutOfRange (.range 0 0 4)] := by
  refine ⟨?_, by decide, ?_⟩ <;>
    rw [node2TreeImpl.eq_def] <;>
    simp [stripInt, simpleAtoi, intComplement, MK.Int_]


/-- The multi-operand loop desugars exactly the non-BlockPass operands, with
the same counter evolution as desugaring the filtered list. -/
theorem multiLoop_spec (ctx : Ctx) (rl : Loc) (es : List PNode) (c : Nat) :
    (multiLoop ctx rl es c).1 = (dsgList ctx (es.filter (fun e => !e.isBlockPass)) c).1
  ∧ (multiLoop ctx rl es c).2.1 = (dsgList ctx (es.filter (fun e => !e.isBlockPass)) c).2.1 := by
  induction es generalizing c with
  | nil => simp [multiLoop, dsgList]
  | cons e rest ih =>
    rw [multiLoop]
    cases hbp : e.isBlockPass with
    | true => simpa [List.filter, hbp] using ih c
    | false =>
      simp only [List.filter, hbp, Bool.not_false, dsgList]
      have := ih (node2TreeImpl ctx e c).2.1
      simp [hbp, this.1, this.2]

/-- A BlockPass operand in a multi-operand Return, Break or Next emits the
UnsupportedNode diagnostic at the construct location. -/
theorem multiLoop_bp_diag (ctx : Ctx) (rl : Loc) (es : List PNode) (c : Nat)
    (h : ∃ e ∈ es, e.isBlockPass) :
    Diag.unsupportedNode rl ∈ (multiLoop ctx rl es c).2.2 := by
  induction es generalizing c with
  | nil => simp at h
  | cons e rest ih =>
    rw [multiLoop]
    rcases h with ⟨x, hx, hxbp⟩
    rcases List.mem_cons.mp hx with rfl | hmem
    · simp [hxbp]
    · cases hbp : e.isBlockPass with
      | true => simp [hbp]
      | false =>
        simp only [hbp, Bool.false_eq_true, if_false, List.mem_append]
        exact Or.inr (ih _ ⟨x, hmem, hxbp⟩)

/-- C9: a return or next whose operand list is exactly one block-pass operand
emits the UnsupportedNode diagnostic and produces a Break node carrying
EmptyTree (not a Return or Next node); with two or more operands a block-pass
operand is skipped (also with the diagnostic) and the remaining operands are
wrapped in an Array under the original Return or Next node kind. -/
theorem return_next_blockpass (ctx : Ctx) (loc bploc : Loc) (b : Option PNode)
    (es : List PNode) (c : Nat) :
    (node2TreeImpl ctx (.returnN loc [.blockPassN bploc b]) c
       = (Expr.breakE loc Expr.emptyTree, c, [.unsupportedNode loc]))
  ∧ (node2TreeImpl ctx (.nextN loc [.blockPassN bploc b]) c
       = (Expr.breakE loc Expr.emptyTree, c, [.unsupportedNode loc]))
  ∧ (es.length > 1 →
      ((node2TreeImpl ctx (.returnN loc es) c).1
         = Expr.returnE loc
             (Expr.arrayE loc (dsgList ctx (es.filter (fun e => !e.isBlockPass)) c).1)
       ∧ (node2TreeImpl ctx (.nextN loc es) c).1
         = Expr.nextE loc
             (Expr.arrayE loc (dsgList ctx (es.filter (fun e => !e.isBlockPass)) c).1)
       ∧ ((∃ e ∈ es, e.isBlockPass) →
           Diag.unsupportedNode loc ∈ (node2TreeImpl ctx (.returnN loc es) c).2.2
         ∧ Diag.unsupportedNode loc ∈ (node2TreeImpl ctx (.nextN loc es) c).2.2))) := by
  refine ⟨?_, ?_, ?_⟩
  · rw [node2TreeImpl.eq_def]
    simp [PNode.isBlockPass, MK.Break, MK.EmptyTree]
  · rw [node2TreeImpl.eq_def]
    simp [PNode.isBlockPass, MK.Break, MK.EmptyTree]
  · intro hlen
    have hr : node2TreeImpl ctx (.returnN loc es) c =
        (MK.Return loc (MK.Array loc (multiLoop ctx loc es c).1),
         (multiLoop ctx loc es c).2.1, (multiLoop ctx loc es c).2.2) := by
      rw [node2TreeImpl.eq_def]
      simp [hlen]
    have hn : node2TreeImpl ctx (.nextN loc es) c =
        (MK.Next loc (MK.Array loc (multiLoop ctx loc es c).1),
         (multiLoop ctx loc es c).2.1, (multiLoop ctx loc es c).2.2) := by
      rw [node2TreeImpl.eq_def]
      simp [hlen]
    refine ⟨?_, ?_, ?_⟩
    · rw [hr]; simp [MK.Return, MK.Array, (multiLoop_spec ctx loc es c).1]
    · rw [hn]; simp [MK.Next, MK.Array, (multiLoop_spec ctx loc es c).1]
    · intro hbp
      exact ⟨by rw [hr]; exact multiLoop_bp_diag ctx loc es c hbp,
             by rw [hn]; exact multiLoop_bp_diag ctx loc es c hbp⟩

/-- C9 witness: a concrete single block-pass return produces Break EmptyTree
with the diagnostic, and a concrete three-operand next with a block pass in
the middle wraps the desugared non-block-pass operands in an Array under the
Next kind. -/
theorem return_next_blockpass_witness :
    (node2TreeImpl ctx0 (.returnN (.range 0 0 9) [.blockPassN (.range 0 2 5) none]) 0
       = (Expr.breakE (.range 0 0 9) Expr.emptyTree, 0, [.unsupportedNode (.range 0 0 9)]))
  ∧ ((2 : Nat) + 1 > 1)
  ∧ (node2TreeImpl ctx0
       (.nextN (.range 0 0 9)
         [.nilN (.range 0 1 2), .blockPassN (.range 0 3 4) none, .trueN (.range 0 5 6)]) 0).1
       = Expr.nextE (.range 0 0 9)
           (Expr.arrayE (.range 0 0 9)
             [Expr.lit (.range 0 1 2) .nilL, Expr.lit (.range 0 5 6) .trueL]) := by
  refine ⟨(return_next_blockpass ctx0 (.range 0 0 9) (.range 0 2 5) none [] 0).1,
          by norm_num, ?_⟩
  have h := (return_next_blockpass ctx0 (.range 0 0 9) (.range 0 3 4) none
    [.nilN (.range 0 1 2), .blockPassN (.range 0 3 4) none, .trueN (.range 0 5 6)] 0).2.2
    (by norm_num)
  refine h.2.1.trans ?_
  rw [dsgList.eq_def]
  simp [List.filter, PNode.isBlockPass, node2TreeImpl, dsgList, MK.Nil, MK.True_]


/-- C10 (amended): in the test-DSL rewriter constant hoister, a constant
assignment whose right-hand side is itself an unresolved constant literal is
moved to the outer scope whole and replaced by EmptyTree (no Module.const_set
is generated); for every other constant assignment the replacement is
Module.const_set(:Name, rhs) and the hoisted declaration binds the constant to
T.let(T.unsafe(nil), Type) when the right-hand side was any two-argument send
of a method named let (the receiver is not inspected), and to T.unsafe(nil)
otherwise. -/
theorem constant_mover_hoist (aloc cloc : Loc) (cscope : Expr) (ccnst : Name) (rhs : Expr) :
    (∀ rloc rscope rcnst, rhs = Expr.unresolvedConst rloc rscope rcnst →
      postTransformAssign aloc (.unresolvedConst cloc cscope ccnst) rhs
        = (Expr.emptyTree, [Expr.assignE aloc (.unresolvedConst cloc cscope ccnst) rhs]))
  ∧ (∀ sloc srecv a0 a1 spriv sblk, rhs = Expr.sendE sloc srecv Names.letName [a0, a1] spriv sblk →
      postTransformAssign aloc (.unresolvedConst cloc cscope ccnst) rhs
        = (MK.Send2 aloc (MK.Constant aloc .moduleCls) Names.constSet (MK.Symbol cloc ccnst) rhs,
           [MK.Assign aloc (.unresolvedConst cloc cscope ccnst)
              (MK.Let aloc (MK.Unsafe aloc (MK.Nil aloc)) a1)]))
  ∧ ((∀ rloc rscope rcnst, rhs ≠ Expr.unresolvedConst rloc rscope rcnst) →
     (∀ sloc srecv a0 a1 spriv sblk, rhs ≠ Expr.sendE sloc srecv Names.letName [a0, a1] spriv sblk) →
      postTransformAssign aloc (.unresolvedConst cloc cscope ccnst) rhs
        = (MK.Send2 aloc (MK.Constant aloc .moduleCls) Names.constSet (MK.Symbol cloc ccnst) rhs,
           [MK.Assign aloc (.unresolvedConst cloc cscope ccnst) (MK.Unsafe aloc (MK.Nil aloc))])) := by
  refine ⟨?_, ?_, ?_⟩
  · rintro rloc rscope rcnst rfl
    simp [postTransformAssign, MK.EmptyTree]
  · rintro sloc srecv a0 a1 spriv sblk rfl
    simp [postTransformAssign, createConstAssign]
  · intro hnc hnl
    cases rhs with
    | unresolvedConst rloc rscope rcnst => exact absurd rfl (hnc rloc rscope rcnst)
    | sendE sloc srecv sfn sargs spriv sblk =>
      simp only [postTransformAssign, createConstAssign]
      match sargs with
      | [] => simp
      | [a0] => simp
      | [a0, a1] =>
        have : sfn ≠ Names.letName := by
          intro h
          exact hnl sloc srecv a0 a1 spriv sblk (by rw [h])
        simp [this]
      | a0 :: a1 :: a2 :: arest => simp
    | emptyTree => simp [postTransformAssign, createConstAssign]
    | ident l k n => simp [postTransformAssign, createConstAssign]
    | constantLit l sy => simp [postTransformAssign, createConstAssign]
    | selfE l => simp [postTransformAssign, createConstAssign]
    | lit l v => simp [postTransformAssign, createConstAssign]
    | assignE l a b => simp [postTransformAssign, createConstAssign]
    | blockE l a b => simp [postTransformAssign, createConstAssign]
    | blockArgE l e => simp [postTransformAssign, createConstAssign]
    | restArgE l e => simp [postTransformAssign, createConstAssign]
    | methodDef l d n a b s1 s2 => simp [postTransformAssign, createConstAssign]
    | classDef l d sy n a b k => simp [postTransformAssign, createConstAssign]
    | ifE l a b e2 => simp [postTransformAssign, createConstAssign]
    | insSeqE l a e => simp [postTransformAssign, createConstAssign]
    | arrayE l e => simp [postTransformAssign, createConstAssign]
    | returnE l e => simp [postTransformAssign, createConstAssign]
    | breakE l e => simp [postTransformAssign, createConstAssign]
    | nextE l e => simp [postTransformAssign, createConstAssign]

/-- C10 witness: concrete instantiations of all three branches of the hoister
behaviour. -/
theorem constant_mover_hoist_witness :
    (postTransformAssign (.range 0 0 9)
        (.unresolvedConst (.range 0 0 1) Expr.emptyTree (.constant (.utf8 "A")))
        (.unresolvedConst (.range 0 4 5) Expr.emptyTree (.constant (.utf8 "B")))
      = (Expr.emptyTree,
         [Expr.assignE (.range 0 0 9)
            (.unresolvedConst (.range 0 0 1) Expr.emptyTree (.constant (.utf8 "A")))
            (.unresolvedConst (.range 0 4 5) Expr.emptyTree (.constant (.utf8 "B")))]))
  ∧ (postTransformAssign (.range 0 0 9)
        (.unresolvedConst (.range 0 0 1) Expr.emptyTree (.constant (.utf8 "A")))
        (.lit (.range 0 4 5) (.int 1))
      = (MK.Send2 (.range 0 0 9) (MK.Constant (.range 0 0 9) .moduleCls) Names.constSet
           (MK.Symbol (.range 0 0 1) (.constant (.utf8 "A"))) (.lit (.range 0 4 5) (.int 1)),
         [MK.Assign (.range 0 0 9)
            (.unresolvedConst (.range 0 0 1) Expr.emptyTree (.constant (.utf8 "A")))
            (MK.Unsafe (.range 0 0 9) (MK.Nil (.range 0 0 9)))])) := by
  constructor
  · exact (constant_mover_hoist (.range 0 0 9) (.range 0 0 1) Expr.emptyTree
      (.constant (.utf8 "A")) _).1 (.range 0 4 5) Expr.emptyTree (.constant (.utf8 "B")) rfl
  · exact (constant_mover_hoist (.range 0 0 9) (.range 0 0 1) Expr.emptyTree
      (.constant (.utf8 "A")) _).2.2 (by intro _ _ _ h; cases h) (by intro _ _ _ _ _ _ h; cases h)

/-- C10 counterexample: for the constant assignment A = Foo.let(1, 2) (a
two-argument let send whose receiver is the constant Foo, not T), the hoisted
declaration is A = T.let(T.unsafe(nil), 2), not the A = T.unsafe(nil) the
claim requires for right-hand sides that are not T.let. -/
theorem constant_mover_hoist_counterexample :
    (postTransformAssign (.range 0 0 9)
        (.unresolvedConst (.range 0 0 1) Expr.emptyTree (.constant (.utf8 "A")))
        (.sendE (.range 0 4 9)
          (.unresolvedConst (.range 0 4 7) Expr.emptyTree (.constant (.utf8 "Foo")))
          Names.letName [.lit (.range 0 5 6) (.int 1), .lit (.range 0 7 8) (.int 2)]
          false none)).2
      = [MK.Assign (.range 0 0 9)
           (.unresolvedConst (.range 0 0 1) Expr.emptyTree (.constant (.utf8 "A")))
           (MK.Let (.range 0 0 9) (MK.Unsafe (.range 0 0 9) (MK.Nil (.range 0 0 9)))
             (.lit (.range 0 7 8) (.int 2)))]
    ∧ [MK.Assign (.range 0 0 9)
           (.unresolvedConst (.range 0 0 1) Expr.emptyTree (.constant (.utf8 "A")))
           (MK.Let (.range 0 0 9) (MK.Unsafe (.range 0 0 9) (MK.Nil (.range 0 0 9)))
             (.lit (.range 0 7 8) (.int 2)))]
      ≠ [MK.Assign (.range 0 0 9)
           (.unresolvedConst (.range 0 0 1) Expr.emptyTree (.constant (.utf8 "A")))
           (MK.Unsafe (.range 0 0 9) (MK.Nil (.range 0 0 9)))] := by
  constructor
  · simp [postTransformAssign, createConstAssign]
  · intro h
    simp [MK.Assign, MK.Let, MK.Unsafe, MK.Nil, MK.Constant, Names.letName, Names.unsafeName] at h

end Sorbet

namespace Sorbet

/-- The enum-value shape check of processStat for the right-hand side of a
constant assignment in a T::Enum body: the self-new intrinsic call on the
Magic class, or a let send passing the letShapeOk chain. -/
def enumValueRhs : Expr → Bool
  | .sendE _ srecv sfn sargs _ _ =>
    if sfn = Names.selfNew then MK.isMagicClass srecv
    else if sfn = Names.letName then letShapeOk srecv sargs
    else false
  | _ => false

/-- C6 (amended): a top-level constant assignment in a T::Enum class body
whose right-hand side does not pass the enum-value shape check is diagnosed
TEnumConstNotEnumValue, and the assignment is kept unchanged in the resulting
class body: processStat returns no replacement statements, so collectNewStats
re-appends the original statement. -/
theorem tenum_bad_const_kept (kname : Expr) (acc : List Expr) (aloc lloc : Loc)
    (lscope : Expr) (lcnst : Name) (rhs : Expr) (fw : FromWhere)
    (h : enumValueRhs rhs = false) :
    processStat kname (Expr.assignE aloc (.unresolvedConst lloc lscope lcnst) rhs) fw
      = ([], [.tenumConstNotEnumValue aloc])
  ∧ collectNewStats kname acc (Expr.assignE aloc (.unresolvedConst lloc lscope lcnst) rhs) fw
      = (acc ++ [Expr.assignE aloc (.unresolvedConst lloc lscope lcnst) rhs],
         [.tenumConstNotEnumValue aloc]) := by
  have hps : processStat kname (Expr.assignE aloc (.unresolvedConst lloc lscope lcnst) rhs) fw
      = ([], [.tenumConstNotEnumValue aloc]) := by
    cases rhs with
    | sendE sloc srecv sfn sargs spriv sblk =>
      by_cases h1 : sfn = Names.selfNew
      · subst h1
        rw [show enumValueRhs (Expr.sendE sloc srecv Names.selfNew sargs spriv sblk)
             = MK.isMagicClass srecv from by
          simp [enumValueRhs, Names.selfNew, Names.letName]] at h
        simp [processStat, badConst, h, Names.selfNew, Names.letName]
      · by_cases h2 : sfn = Names.letName
        · subst h2
          rw [show enumValueRhs (Expr.sendE sloc srecv Names.letName sargs spriv sblk)
               = letShapeOk srecv sargs from by
            simp [enumValueRhs, Names.selfNew, Names.letName]] at h
          simp [processStat, badConst, h, Names.selfNew, Names.letName]
        · simp [processStat, badConst, h1, h2]
    | emptyTree => simp [processStat, badConst]
    | ident l k n => simp [processStat, badConst]
    | constantLit l sy => simp [processStat, badConst]
    | unresolvedConst l sc cn => simp [processStat, badConst]
    | selfE l => simp [processStat, badConst]
    | lit l v => simp [processStat, badConst]
    | assignE l a b => simp [processStat, badConst]
    | blockE l a b => simp [processStat, badConst]
    | blockArgE l e => simp [processStat, badConst]
    | restArgE l e => simp [processStat, badConst]
    | methodDef l d n a b s1 s2 => simp [processStat, badConst]
    | classDef l d sy n a b k => simp [processStat, badConst]
    | ifE l a b e2 => simp [processStat, badConst]
    | insSeqE l a e => simp [processStat, badConst]
    | arrayE l e => simp [processStat, badConst]
    | returnE l e => simp [processStat, badConst]
    | breakE l e => simp [processStat, badConst]
    | nextE l e => simp [processStat, badConst]
  exact ⟨hps, by simp [collectNewStats, hps]⟩


/-- C6 witness: a concrete constant assignment X = 1 in a T::Enum body is
diagnosed and re-appended unchanged. -/
theorem tenum_bad_const_kept_witness :
    enumValueRhs (Expr.lit (.range 0 29 30) (.int 1)) = false
  ∧ collectNewStats (Expr.unresolvedConst (.noneL 0) Expr.emptyTree (.constant (.utf8 "E")))
      []
      (Expr.assignE (.range 0 25 30)
        (.unresolvedConst (.range 0 25 26) Expr.emptyTree (.constant (.utf8 "X")))
        (Expr.lit (.range 0 29 30) (.int 1))) .outside
      = ([Expr.assignE (.range 0 25 30)
            (.unresolvedConst (.range 0 25 26) Expr.emptyTree (.constant (.utf8 "X")))
            (Expr.lit (.range 0 29 30) (.int 1))],
         [.tenumConstNotEnumValue (.range 0 25 30)]) := by
  refine ⟨by simp [enumValueRhs], ?_⟩
  have := (tenum_bad_const_kept
    (Expr.unresolvedConst (.noneL 0) Expr.emptyTree (.constant (.utf8 "E"))) []
    (.range 0 25 30) (.range 0 25 26) Expr.emptyTree (.constant (.utf8 "X"))
    (Expr.lit (.range 0 29 30) (.int 1)) .outside (by simp [enumValueRhs])).2
  simpa using this

/-- C6 counterexample: running the Typed Enum rewriter on a T::Enum class
whose body is the invalid constant assignment X = 1 emits the diagnostic but
keeps the assignment as the last entry of the rewritten class body; the claim
says the assignment is dropped. -/
theorem tenum_bad_const_kept_counterexample :
    tenumRun false
      (Expr.classDef (.range 0 0 40) (.range 0 0 12) .todo
        (Expr.unresolvedConst (.range 0 6 12) Expr.emptyTree (.constant (.utf8 "MyEnum")))
        [Expr.unresolvedConst (.range 0 15 22)
          (Expr.unresolvedConst (.range 0 15 16) Expr.emptyTree Names.cT) Names.cEnum]
        [Expr.assignE (.range 0 25 30)
          (Expr.unresolvedConst (.range 0 25 26) Expr.emptyTree (.constant (.utf8 "X")))
          (Expr.lit (.range 0 29 30) (.int 1))] false)
      = (Expr.classDef (.range 0 0 40) (.range 0 0 12) .todo
          (Expr.unresolvedConst (.range 0 6 12) Expr.emptyTree (.constant (.utf8 "MyEnum")))
          [Expr.unresolvedConst (.range 0 15 22)
            (Expr.unresolvedConst (.range 0 15 16) Expr.emptyTree Names.cT) Names.cEnum]
          [MK.Send1 (.range 0 0 12) (MK.Self (.range 0 0 12)) Names.extendName
             (MK.Constant (.range 0 0 12) .tHelpers),
           MK.Send0 (.range 0 0 12) (MK.Self (.range 0 0 12)) Names.declareAbstract,
           MK.Send0 (.range 0 0 12) (MK.Self (.range 0 0 12)) Names.declareSealed,
           Expr.assignE (.range 0 25 30)
             (Expr.unresolvedConst (.range 0 25 26) Expr.emptyTree (.constant (.utf8 "X")))
             (Expr.lit (.range 0 29 30) (.int 1))] false,
         [.tenumConstNotEnumValue (.range 0 25 30)])
  ∧ Expr.assignE (.range 0 25 30)
      (Expr.unresolvedConst (.range 0 25 26) Expr.emptyTree (.constant (.utf8 "X")))
      (Expr.lit (.range 0 29 30) (.int 1))
    ∈ [MK.Send1 (.range 0 0 12) (MK.Self (.range 0 0 12)) Names.extendName
         (MK.Constant (.range 0 0 12) .tHelpers),
       MK.Send0 (.range 0 0 12) (MK.Self (.range 0 0 12)) Names.declareAbstract,
       MK.Send0 (.range 0 0 12) (MK.Self (.range 0 0 12)) Names.declareSealed,
       Expr.assignE (.range 0 25 30)
         (Expr.unresolvedConst (.range 0 25 26) Expr.emptyTree (.constant (.utf8 "X")))
         (Expr.lit (.range 0 29 30) (.int 1))] := by
  constructor
  · simp [tenumRun, isTEnum, tenumFold, asEnumsDoBody, collectNewStats, processStat,
      badConst, Names.cT, Names.cEnum, Names.selfNew, Names.letName, MK.Send0, MK.Send1,
      MK.Self, MK.Constant]
  · simp

/-- C7 (amended): a valid enum-variant assignment Name = rhs inside a T::Enum
class is replaced by exactly two declarations in order: a nested ClassDef
named by the TEnum-unique constant derived from Name, whose single ancestor is
the enclosing class name and whose body is include Singleton; final!
(Singleton is included, not extended), followed by the re-typed assignment
Name = T.let(thatClass.instance, thatClass). -/
theorem tenum_variant_replacement (kname : Expr) (aloc lloc : Loc) (lscope : Expr)
    (lcnst : Name) (rhs : Expr) (h : enumValueRhs rhs = true) :
    processStat kname (Expr.assignE aloc (.unresolvedConst lloc lscope lcnst) rhs) .inside
      = ([Expr.classDef aloc aloc .todo
            (Expr.unresolvedConst lloc Expr.emptyTree
              (Name.constant (Name.unique .tenum lcnst 1)))
            [kname]
            [Expr.sendE aloc (Expr.selfE aloc) Names.includeName
               [Expr.constantLit aloc .singletonCls] false none,
             Expr.sendE aloc (Expr.selfE aloc) Names.declareFinal [] false none] false,
          Expr.assignE aloc (Expr.unresolvedConst lloc lscope lcnst)
            (Expr.sendE aloc (Expr.constantLit aloc .tCls) Names.letName
              [Expr.sendE aloc
                 (Expr.unresolvedConst lloc Expr.emptyTree
                   (Name.constant (Name.unique .tenum lcnst 1))) Names.instanceName [] false none,
               Expr.unresolvedConst lloc Expr.emptyTree
                 (Name.constant (Name.unique .tenum lcnst 1))] false none)],
         []) := by
  cases rhs
  case sendE sloc srecv sfn sargs spriv sblk =>
    by_cases h1 : sfn = Names.selfNew
    · subst h1
      rw [show enumValueRhs (Expr.sendE sloc srecv Names.selfNew sargs spriv sblk)
           = MK.isMagicClass srecv from by
        simp [enumValueRhs, Names.selfNew, Names.letName]] at h
      simp [processStat, badConst, h, Names.selfNew, Names.letName, MK.Class,
        MK.UnresolvedConstant, MK.EmptyTree, MK.Send0, MK.Send1, MK.Send2, MK.Self,
        MK.Constant, MK.Assign, FromWhere.inside]
    · by_cases h2 : sfn = Names.letName
      · subst h2
        rw [show enumValueRhs (Expr.sendE sloc srecv Names.letName sargs spriv sblk)
             = letShapeOk srecv sargs from by
          simp [enumValueRhs, Names.selfNew, Names.letName]] at h
        simp [processStat, badConst, h, Names.selfNew, Names.letName, MK.Class,
          MK.UnresolvedConstant, MK.EmptyTree, MK.Send0, MK.Send1, MK.Send2, MK.Self,
          MK.Constant, MK.Assign, FromWhere.inside]
      · rw [show enumValueRhs (Expr.sendE sloc srecv sfn sargs spriv sblk)
             = false from by simp [enumValueRhs, h1, h2]] at h
        cases h
  all_goals simp [enumValueRhs] at h

/-- C7 witness: the concrete valid variant assignment
A = Magic.self-new(self) is replaced by the singleton class (whose body
includes Singleton and declares final!) and the re-typed assignment. -/
theorem tenum_variant_replacement_witness :
    enumValueRhs (Expr.sendE (.range 0 4 20) (MK.Constant (.range 0 4 9) .magic)
        Names.selfNew [MK.Self (.range 0 14 18)] false none) = true
  ∧ processStat (Expr.unresolvedConst (.noneL 0) Expr.emptyTree (.constant (.utf8 "MyEnum")))
      (Expr.assignE (.range 0 0 20)
        (.unresolvedConst (.range 0 0 1) Expr.emptyTree (.constant (.utf8 "A")))
        (Expr.sendE (.range 0 4 20) (MK.Constant (.range 0 4 9) .magic)
          Names.selfNew [MK.Self (.range 0 14 18)] false none)) .inside
      = ([Expr.classDef (.range 0 0 20) (.range 0 0 20) .todo
            (Expr.unresolvedConst (.range 0 0 1) Expr.emptyTree
              (Name.constant (Name.unique .tenum (.constant (.utf8 "A")) 1)))
            [Expr.unresolvedConst (.noneL 0) Expr.emptyTree (.constant (.utf8 "MyEnum"))]
            [Expr.sendE (.range 0 0 20) (Expr.selfE (.range 0 0 20)) Names.includeName
               [Expr.constantLit (.range 0 0 20) .singletonCls] false none,
             Expr.sendE (.range 0 0 20) (Expr.selfE (.range 0 0 20)) Names.declareFinal
               [] false none] false,
          Expr.assignE (.range 0 0 20)
            (Expr.unresolvedConst (.range 0 0 1) Expr.emptyTree (.constant (.utf8 "A")))
            (Expr.sendE (.range 0 0 20) (Expr.constantLit (.range 0 0 20) .tCls)
              Names.letName
              [Expr.sendE (.range 0 0 20)
                 (Expr.unresolvedConst (.range 0 0 1) Expr.emptyTree
                   (Name.constant (Name.unique .tenum (.constant (.utf8 "A")) 1)))
                 Names.instanceName [] false none,
               Expr.unresolvedConst (.range 0 0 1) Expr.emptyTree
                 (Name.constant (Name.unique .tenum (.constant (.utf8 "A")) 1))] false none)],
         []) := by
  refine ⟨by simp [enumValueRhs, MK.isMagicClass, MK.Constant, Names.selfNew, Names.letName], ?_⟩
  exact tenum_variant_replacement
    (Expr.unresolvedConst (.noneL 0) Expr.emptyTree (.constant (.utf8 "MyEnum")))
    (.range 0 0 20) (.range 0 0 1) Expr.emptyTree (.constant (.utf8 "A")) _
    (by simp [enumValueRhs, MK.isMagicClass, MK.Constant, Names.selfNew, Names.letName])

/-- C7 counterexample: for the valid variant assignment the nested class body
begins with include Singleton, so the replacement differs from the claimed
pair whose class body begins with extend Singleton. -/
theorem tenum_variant_replacement_counterexample :
    (processStat (Expr.unresolvedConst (.noneL 0) Expr.emptyTree (.constant (.utf8 "MyEnum")))
      (Expr.assignE (.range 0 0 20)
        (.unresolvedConst (.range 0 0 1) Expr.emptyTree (.constant (.utf8 "A")))
        (Expr.sendE (.range 0 4 20) (MK.Constant (.range 0 4 9) .magic)
          Names.selfNew [MK.Self (.range 0 14 18)] false none)) .inside).1.head?
      = some (Expr.classDef (.range 0 0 20) (.range 0 0 20) .todo
          (Expr.unresolvedConst (.range 0 0 1) Expr.emptyTree
            (Name.constant (Name.unique .tenum (.constant (.utf8 "A")) 1)))
          [Expr.unresolvedConst (.noneL 0) Expr.emptyTree (.constant (.utf8 "MyEnum"))]
          [Expr.sendE (.range 0 0 20) (Expr.selfE (.range 0 0 20)) Names.includeName
             [Expr.constantLit (.range 0 0 20) .singletonCls] false none,
           Expr.sendE (.range 0 0 20) (Expr.selfE (.range 0 0 20)) Names.declareFinal
             [] false none] false)
  ∧ (Expr.classDef (.range 0 0 20) (.range 0 0 20) .todo
        (Expr.unresolvedConst (.range 0 0 1) Expr.emptyTree
          (Name.constant (Name.unique .tenum (.constant (.utf8 "A")) 1)))
        [Expr.unresolvedConst (.noneL 0) Expr.emptyTree (.constant (.utf8 "MyEnum"))]
        [Expr.sendE (.range 0 0 20) (Expr.selfE (.range 0 0 20)) Names.includeName
           [Expr.constantLit (.range 0 0 20) .singletonCls] false none,
         Expr.sendE (.range 0 0 20) (Expr.selfE (.range 0 0 20)) Names.declareFinal
           [] false none] false)
    ≠ (Expr.classDef (.range 0 0 20) (.range 0 0 20) .todo
        (Expr.unresolvedConst (.range 0 0 1) Expr.emptyTree
          (Name.constant (Name.unique .tenum (.constant (.utf8 "A")) 1)))
        [Expr.unresolvedConst (.noneL 0) Expr.emptyTree (.constant (.utf8 "MyEnum"))]
        [Expr.sendE (.range 0 0 20) (Expr.selfE (.range 0 0 20)) Names.extendName
           [Expr.constantLit (.range 0 0 20) .singletonCls] false none,
         Expr.sendE (.range 0 0 20) (Expr.selfE (.range 0 0 20)) Names.declareFinal
           [] false none] false) := by
  constructor
  · simp [processStat, badConst, letShapeOk, MK.isMagicClass, MK.Constant, MK.Self,
      Names.selfNew, Names.letName, MK.Class, MK.UnresolvedConstant, MK.EmptyTree,
      MK.Send0, MK.Send1, MK.Send2, MK.Assign]
  · intro hcl
    simp [Names.includeName, Names.extendName] at hcl


/-- C5 (amended): for a case with a scrutinee and one when clause carrying two
patterns p1 and p2, desugar captures the scrutinee in a fresh temporary,
desugars the else branch, turns each pattern pi into the test pi === t (the
pattern is the receiver of a triple-equals Send whose argument is the
temporary), and OR-combines the two tests with the SECOND pattern outermost:
if p2 === t then true else (p1 === t). -/
theorem case_two_patterns (ctx : Ctx) (loc cloc0 wloc : Loc) (cond : PNode)
    (p1 p2 : PNode) (wbody els : Option PNode) (c : Nat) :
    node2TreeImpl ctx (.caseN loc (some cond) [(wloc, [p1, p2], wbody)] els) c =
      (let cloc := cond.loc
       let c1 := c + 1
       let temp := Name.unique .desugar Names.assignTemp c1
       let rc := node2TreeImpl ctx cond c1
       let re := dsgOpt ctx els rc.2.1
       let r1 := node2TreeImpl ctx p1 re.2.1
       let t1 := Expr.sendE r1.1.loc r1.1 Names.tripleEq [MK.Local cloc temp] false none
       let r2 := node2TreeImpl ctx p2 r1.2.1
       let t2 := Expr.sendE r2.1.loc r2.1 Names.tripleEq [MK.Local cloc temp] false none
       let rb := dsgOpt ctx wbody r2.2.1
       (Expr.insSeqE loc [Expr.assignE cloc (MK.Local cloc temp) rc.1]
          (Expr.ifE wloc (Expr.ifE t2.loc t2 (MK.True_ t2.loc) t1) rb.1 re.1),
        rb.2.1, rc.2.2 ++ re.2.2 ++ (r1.2.2 ++ (r2.2.2 ++ rb.2.2)))) := by
  rw [node2TreeImpl.eq_def]
  simp only [caseWhens, casePatterns, MK.AssignLocal, MK.Send1, MK.InsSeq1, MK.If,
    MK.True_, MK.EmptyTree, Option.getD]
  simp [caseWhens, casePatterns]

/-- C5 counterexample: for case x; when 1, 2 then 3; else 4; end the combined
condition of the desugared when is the If whose condition tests the SECOND
pattern, if (2 === t) then true else (1 === t); the claim states the form
if (1 === t) then true else (2 === t), and the two trees differ. -/
theorem case_two_patterns_counterexample :
    (node2TreeImpl ctx0
      (.caseN (.range 0 0 30) (some (.lvar (.range 0 5 6) (.utf8 "x")))
        [((.range 0 8 20),
          [.integerN (.range 0 13 14) "1", .integerN (.range 0 16 17) "2"],
          some (.integerN (.range 0 19 20) "3"))]
        (some (.integerN (.range 0 27 28) "4"))) 0).1
      = Expr.insSeqE (.range 0 0 30)
          [Expr.assignE (.range 0 5 6)
            (MK.Local (.range 0 5 6) (Name.unique .desugar Names.assignTemp 1))
            (MK.Local (.range 0 5 6) (.utf8 "x"))]
          (Expr.ifE (.range 0 8 20)
            (Expr.ifE (.range 0 16 17)
              (Expr.sendE (.range 0 16 17) (Expr.lit (.range 0 16 17) (.int 2))
                Names.tripleEq
                [MK.Local (.range 0 5 6) (Name.unique .desugar Names.assignTemp 1)] false none)
              (MK.True_ (.range 0 16 17))
              (Expr.sendE (.range 0 13 14) (Expr.lit (.range 0 13 14) (.int 1))
                Names.tripleEq
                [MK.Local (.range 0 5 6) (Name.unique .desugar Names.assignTemp 1)] false none))
            (Expr.lit (.range 0 19 20) (.int 3))
            (Expr.lit (.range 0 27 28) (.int 4)))
  ∧ Expr.ifE (.range 0 16 17)
      (Expr.sendE (.range 0 16 17) (Expr.lit (.range 0 16 17) (.int 2)) Names.tripleEq
        [MK.Local (.range 0 5 6) (Name.unique .desugar Names.assignTemp 1)] false none)
      (MK.True_ (.range 0 16 17))
      (Expr.sendE (.range 0 13 14) (Expr.lit (.range 0 13 14) (.int 1)) Names.tripleEq
        [MK.Local (.range 0 5 6) (Name.unique .desugar Names.assignTemp 1)] false none)
    ≠ Expr.ifE (.range 0 13 14)
      (Expr.sendE (.range 0 13 14) (Expr.lit (.range 0 13 14) (.int 1)) Names.tripleEq
        [MK.Local (.range 0 5 6) (Name.unique .desugar Names.assignTemp 1)] false none)
      (MK.True_ (.range 0 13 14))
      (Expr.sendE (.range 0 16 17) (Expr.lit (.range 0 16 17) (.int 2)) Names.tripleEq
        [MK.Local (.range 0 5 6) (Name.unique .desugar Names.assignTemp 1)] false none) := by
  constructor
  · rw [node2TreeImpl.eq_def]
    simp [caseWhens, casePatterns, node2TreeImpl, dsgOpt, stripInt, simpleAtoi,
      MK.AssignLocal, MK.Local, MK.Send1, MK.InsSeq1, MK.If, MK.True_, MK.Int_,
      Expr.loc, MK.EmptyTree, PNode.loc]
  · intro hcl
    simp [MK.Local, MK.True_] at hcl


/-- buildMethod expressed through the standalone desugarArgs wrapper. -/
theorem buildMethod_unfold (ctx : Ctx) (loc declLoc : Loc) (nm : Name)
    (argnode : Option (List PNode)) (body : Option PNode) (isSelf : Bool) (c : Nat) :
    (buildMethod ctx loc declLoc nm argnode body isSelf c).1
      = (let ra := desugarArgs ctx argnode 1
         let args0 := ra.1
         let needSynth := args0.isEmpty || !args0.getLast?.elim false Expr.isBlockArg
         let blkLoc := Loc.noneL loc.file
         let args :=
           if needSynth then args0 ++ [MK.BlockArg blkLoc (MK.Local blkLoc Names.blkArg)]
           else args0
         let enclosing := blockArg2Name (args.getLast?.getD MK.EmptyTree)
         let ctx2 : Ctx := { ctx with enclosingBlockArg := some enclosing }
         let rb := desugarBody ctx2 loc body ra.2.1 ra.2.2.1
         let rv := validateRBIBody ctx rb.1
         MK.Method loc declLoc nm args rv.1 isSelf) := by
  rw [buildMethod.eq_def]
  cases argnode <;> rfl

/-- C2: the argument list of every MethodDef built by buildMethod (the sole
constructor of MethodDef nodes in the desugarer) ends with exactly one
BlockArg: it is never empty, its last parameter is a BlockArg, and, provided
the surface parameter list had block parameters only in final position, no
earlier parameter is a BlockArg; when the desugared surface parameter list was
empty or did not end in a BlockArg, the synthesized BlockArg named blkArg with
a none Loc is appended as the last parameter. -/
theorem buildMethod_block_arg_normal_form (ctx : Ctx) (loc declLoc : Loc) (nm : Name)
    (argnode : Option (List PNode)) (body : Option PNode) (isSelf : Bool) (c : Nat)
    (h : ∀ e ∈ ((desugarArgs ctx argnode 1).1).dropLast, e.isBlockArg = false) :
    ∃ margs mbody,
      (buildMethod ctx loc declLoc nm argnode body isSelf c).1
        = Expr.methodDef loc declLoc nm margs mbody isSelf false
    ∧ margs ≠ []
    ∧ (∃ last, margs.getLast? = some last ∧ last.isBlockArg = true)
    ∧ (∀ e ∈ margs.dropLast, e.isBlockArg = false)
    ∧ (((desugarArgs ctx argnode 1).1 = []
        ∨ ∀ last, ((desugarArgs ctx argnode 1).1).getLast? = some last →
            last.isBlockArg = false) →
        margs = (desugarArgs ctx argnode 1).1
          ++ [Expr.blockArgE (Loc.noneL loc.file)
                (Expr.ident (Loc.noneL loc.file) .localK Names.blkArg)]) := by
  rw [buildMethod_unfold]
  by_cases hsyn :
      ((desugarArgs ctx argnode 1).1.isEmpty
        || !((desugarArgs ctx argnode 1).1.getLast?.elim false Expr.isBlockArg)) = true
  · simp only [hsyn, if_true, MK.Method, MK.BlockArg, MK.Local]
    refine ⟨_, _, rfl, ?_, ?_, ?_, ?_⟩
    · simp
    · refine ⟨_, List.getLast?_concat _, rfl⟩
    · intro e he
      rw [List.dropLast_concat] at he
      rcases List.eq_nil_or_concat (desugarArgs ctx argnode 1).1 with hn | ⟨ini, lst, hco⟩
      · rw [hn] at he; simp at he
      · rw [List.concat_eq_append] at hco
        rw [hco] at he
        rcases (List.mem_append.mp he) with hini | hl
        · exact h e (by rw [hco, List.dropLast_concat]; exact hini)
        · have : e = lst := by simpa using hl
          subst this
          rw [hco] at hsyn
          simp only [List.getLast?_concat, Option.elim, Bool.or_eq_true,
            List.isEmpty_iff] at hsyn
          rcases hsyn with hemp | hnb
          · exact absurd hemp (by simp)
          · simpa using hnb
    · intro _; rfl
  · have hsyn2 := hsyn
    simp only [Bool.or_eq_true, not_or, Bool.not_eq_true, Bool.not_eq_false,
      List.isEmpty_iff] at hsyn2
    obtain ⟨hne, hlast⟩ := hsyn2
    rcases List.eq_nil_or_concat (desugarArgs ctx argnode 1).1 with hn | ⟨ini, lst, hco⟩
    · simp [hn] at hne
    · rw [List.concat_eq_append] at hco
      have hb : ((desugarArgs ctx argnode 1).1.isEmpty
          || !((desugarArgs ctx argnode 1).1.getLast?.elim false Expr.isBlockArg)) = false := by
        simpa using hsyn
      simp only [hb, Bool.false_eq_true, if_false, MK.Method]
      refine ⟨_, _, rfl, ?_, ?_, ?_, ?_⟩
      · exact hne
      · refine ⟨lst, by rw [hco]; exact List.getLast?_concat _, ?_⟩
        rw [hco, List.getLast?_concat] at hlast
        simpa using hlast
      · exact h
      · intro hcond
        rcases hcond with hnil | hall
        · exact absurd hnil hne
        · have := hall lst (by rw [hco]; exact List.getLast?_concat _)
          rw [hco, List.getLast?_concat] at hlast
          simp only [Option.elim] at hlast
          rw [this] at hlast
          cases hlast

/-- C2 witness: a concrete method def m(a) gains the synthesized blkArg
parameter after its ordinary parameter. -/
theorem buildMethod_block_arg_normal_form_witness :
    ∃ margs mbody,
      (buildMethod ctx0 (.range 0 0 12) (.range 0 0 7) (.utf8 "m")
        (some [.argN (.range 0 6 7) (.utf8 "a")]) none false 0).1
        = Expr.methodDef (.range 0 0 12) (.range 0 0 7) (.utf8 "m") margs mbody false false
    ∧ margs ≠ []
    ∧ (∃ last, margs.getLast? = some last ∧ last.isBlockArg = true)
    ∧ (∀ e ∈ margs.dropLast, e.isBlockArg = false)
    ∧ margs = [MK.Local (.range 0 6 7) (.utf8 "a"),
               Expr.blockArgE (.noneL 0) (Expr.ident (.noneL 0) .localK Names.blkArg)] := by
  have harg : (desugarArgs ctx0 (some [.argN (.range 0 6 7) (.utf8 "a")]) 1).1
      = [MK.Local (.range 0 6 7) (.utf8 "a")] := by
    simp [desugarArgs, argsLoop, node2TreeImpl]
  obtain ⟨margs, mbody, h1, h2, h3, h4, h5⟩ :=
    buildMethod_block_arg_normal_form ctx0 (.range 0 0 12) (.range 0 0 7) (.utf8 "m")
      (some [.argN (.range 0 6 7) (.utf8 "a")]) none false 0
      (by rw [harg]; simp [MK.Local, Expr.isBlockArg])
  refine ⟨margs, mbody, h1, h2, h3, h4, ?_⟩
  rw [h5 (Or.inr ?_), harg]
  · simp [Loc.file]
  · rw [harg]
    rintro last hl
    simp at hl
    rw [← hl]
    simp [MK.Local, Expr.isBlockArg]


/-- The desugarMlhs element loop distributes over list append. -/
theorem mlhsLoop_append (ctx : Ctx) (loc : Loc) (te : Name) (total : Nat)
    (xs ys : List PNode) (s : MlhsAcc) :
    mlhsLoop ctx loc te total (xs ++ ys) s
      = mlhsLoop ctx loc te total ys (mlhsLoop ctx loc te total xs s) := by
  induction xs generalizing s with
  | nil => rw [List.nil_append, mlhsLoop]
  | cons x xs ih =>
    rw [List.cons_append, mlhsLoop, mlhsLoop]
    exact ih _

/-- One non-splat element of the desugarMlhs loop appends exactly one
statement, advances the index by one, bumps before (or after, once a splat was
seen) by one, and leaves the didSplat flag alone. -/
theorem mlhsStep_nonSplat (ctx : Ctx) (loc : Loc) (te : Name) (total : Nat)
    (p : PNode) (s : MlhsAcc) (h : p.isSplatLhs = false) :
    ∃ stat c1 d1,
      mlhsStep ctx loc te total p s
        = { stats := s.stats ++ [stat], i := s.i + 1,
            before := if s.didSplat then s.before else s.before + 1,
            after := if s.didSplat then s.after + 1 else s.after,
            didSplat := s.didSplat, ctr := c1, diags := d1 } := by
  cases p
  case splatLhsN l v => simp [PNode.isSplatLhs] at h
  all_goals simp only [mlhsStep]
  all_goals exact ⟨_, _, _, rfl⟩

/-- Processing a splat-free segment appends one statement per element,
advances the index by the segment length, adds the length to before (or to
after when a splat was already seen), and preserves the didSplat flag. -/
theorem mlhsLoop_noSplat (ctx : Ctx) (loc : Loc) (te : Name) (total : Nat)
    (xs : List PNode) (s : MlhsAcc) (h : ∀ p ∈ xs, p.isSplatLhs = false) :
    (mlhsLoop ctx loc te total xs s).i = s.i + xs.length
  ∧ (mlhsLoop ctx loc te total xs s).didSplat = s.didSplat
  ∧ (mlhsLoop ctx loc te total xs s).before
      = s.before + (if s.didSplat then 0 else xs.length)
  ∧ (mlhsLoop ctx loc te total xs s).after
      = s.after + (if s.didSplat then xs.length else 0)
  ∧ ∃ ds, (mlhsLoop ctx loc te total xs s).stats = s.stats ++ ds ∧ ds.length = xs.length := by
  induction xs generalizing s with
  | nil =>
    rw [mlhsLoop]
    refine ⟨by simp, rfl, by simp, by simp, [], by simp, rfl⟩
  | cons x xs ih =>
    rw [mlhsLoop]
    obtain ⟨stat, c1, d1, hstep⟩ :=
      mlhsStep_nonSplat ctx loc te total x s (h x (List.mem_cons_self x xs))
    rw [hstep]
    obtain ⟨hi, hds, hb, ha, ds, hst, hlen⟩ :=
      ih _ (fun p hp => h p (List.mem_cons_of_mem x hp))
    refine ⟨by rw [hi]; simp; ring, by rw [hds],
      ?_, ?_, stat :: ds, ?_, by simp [hlen]⟩
    · rw [hb]
      cases hsp : s.didSplat <;> simp [hsp] <;> omega
    · rw [ha]
      cases hsp : s.didSplat <;> simp [hsp] <;> omega
    · rw [hst]
      simp

/-- The splat element of the desugarMlhs loop: emits the slice assignment of
the desugared target against Range.new(i, -right, exclusive), where right is
the number of entries after the splat coerced to 1 (with an inclusive range)
when zero. -/
theorem mlhsStep_splat (ctx : Ctx) (loc : Loc) (te : Name) (total : Nat) (sloc : Loc)
    (v : PNode) (s : MlhsAcc)
    (hv : ((node2TreeImpl ctx v s.ctr).1).isEmptyTree = false) :
    mlhsStep ctx loc te total (.splatLhsN sloc (some v)) s
      = (let r := node2TreeImpl ctx v s.ctr
         let lh := r.1
         let right : Int := (total : Int) - s.i - 1
         let rightExcl : Int × Expr :=
           if right = 0 then (1, MK.False_ lh.loc) else (right, MK.True_ lh.loc)
         { s with
           stats := s.stats ++
             [MK.Assign lh.loc lh
               (MK.Send1 loc (MK.Local loc te) Names.slice
                 (MK.Send3 lh.loc (MK.Constant lh.loc .rangeCls) Names.newName
                   (MK.Int_ lh.loc s.i) (MK.Int_ lh.loc (-rightExcl.1)) rightExcl.2))],
           i := -rightExcl.1, didSplat := true, ctr := r.2.1,
           diags := s.diags ++ r.2.2 }) := by
  rw [mlhsStep]
  simp only [dsgOpt, hv, Bool.false_eq_true, if_false]


/-- C3: desugaring the multiple assignment pre, *v, post = rhs produces the
sequence tRhs = rhs; tExp = Magic.expandSplat(tRhs, before, after); one
statement per target with the splat target assigned
tExp.slice(Range.new(before, -after, exclusive)), where before and after are
the numbers of targets before and after the splat, exclusive is true exactly
when there is at least one post-splat target, and with no post-splat targets
the range length is coerced to 1 with an inclusive range; the whole sequence
evaluates to the temporary tRhs holding the entire right-hand side. -/
theorem desugarMlhs_splat (ctx : Ctx) (loc sloc : Loc) (pre post : List PNode) (v : PNode)
    (rhs : Expr) (c : Nat)
    (hpre : ∀ p ∈ pre, p.isSplatLhs = false) (hpost : ∀ p ∈ post, p.isSplatLhs = false)
    (hv : ∀ c2, ((node2TreeImpl ctx v c2).1).isEmptyTree = false) :
    ∃ (lh : Expr) (preStats postStats : List Expr) (cmid : Nat) (rend : Nat × List Diag),
      lh = (node2TreeImpl ctx v cmid).1
    ∧ preStats.length = pre.length
    ∧ postStats.length = post.length
    ∧ desugarMlhs ctx loc (pre ++ .splatLhsN sloc (some v) :: post) rhs c
        = (Expr.insSeqE loc
            (MK.AssignLocal loc (Name.unique .desugar Names.assignTemp (c + 1)) rhs
             :: MK.AssignLocal loc (Name.unique .desugar Names.assignTemp (c + 1 + 1))
                  (MK.Send3 loc (MK.Constant loc .magic) Names.expandSplat
                    (MK.Local loc (Name.unique .desugar Names.assignTemp (c + 1)))
                    (MK.Int_ loc pre.length) (MK.Int_ loc post.length))
             :: (preStats
                 ++ MK.Assign lh.loc lh
                      (MK.Send1 loc
                        (MK.Local loc (Name.unique .desugar Names.assignTemp (c + 1 + 1)))
                        Names.slice
                        (MK.Send3 lh.loc (MK.Constant lh.loc .rangeCls) Names.newName
                          (MK.Int_ lh.loc pre.length)
                          (MK.Int_ lh.loc (-(if post.length = 0 then 1 else (post.length : Int))))
                          (if post.length = 0 then MK.False_ lh.loc else MK.True_ lh.loc)))
                 :: postStats))
            (MK.Local loc (Name.unique .desugar Names.assignTemp (c + 1))), rend) := by
  set te := Name.unique UniqueKind.desugar Names.assignTemp (c + 1 + 1) with hte
  set total := (pre ++ PNode.splatLhsN sloc (some v) :: post).length with htotal
  set s0 : MlhsAcc :=
    { stats := [], i := 0, before := 0, after := 0, didSplat := false,
      ctr := c + 1 + 1, diags := [] } with hs0
  set S1 := mlhsLoop ctx loc te total pre s0 with hS1
  set lh := (node2TreeImpl ctx v S1.ctr).1 with hlh
  obtain ⟨hi1, hds1, hb1, ha1, preStats, hst1, hlen1⟩ :=
    mlhsLoop_noSplat ctx loc te total pre s0 hpre
  rw [← hS1] at hi1 hds1 hb1 ha1 hst1
  have hi1n : S1.i = (pre.length : Int) := by rw [hi1]; simp [hs0]
  have hb1n : S1.before = pre.length := by rw [hb1]; simp [hs0]
  have ha1n : S1.after = 0 := by rw [ha1]; simp [hs0]
  have hst1n : S1.stats = preStats := by rw [hst1]; simp [hs0]
  have hright : (total : Int) - S1.i - 1 = (post.length : Int) := by
    rw [hi1n, htotal]
    push_cast [List.length_append, List.length_cons]
    omega
  set splatStat := MK.Assign lh.loc lh
    (MK.Send1 loc (MK.Local loc te) Names.slice
      (MK.Send3 lh.loc (MK.Constant lh.loc .rangeCls) Names.newName
        (MK.Int_ lh.loc pre.length)
        (MK.Int_ lh.loc (-(if post.length = 0 then 1 else (post.length : Int))))
        (if post.length = 0 then MK.False_ lh.loc else MK.True_ lh.loc))) with hsp
  set S2 : MlhsAcc :=
    { stats := S1.stats ++ [splatStat],
      i := -(if post.length = 0 then 1 else (post.length : Int)),
      before := S1.before, after := S1.after, didSplat := true,
      ctr := (node2TreeImpl ctx v S1.ctr).2.1,
      diags := S1.diags ++ (node2TreeImpl ctx v S1.ctr).2.2 } with hS2
  have hstep : mlhsStep ctx loc te total (PNode.splatLhsN sloc (some v)) S1 = S2 := by
    rw [mlhsStep_splat ctx loc te total sloc v S1 (hv S1.ctr)]
    simp only [← hlh]
    rw [hright]
    have hcast : ((post.length : Int) = 0) = (post.length = 0) := by
      simp
    rw [hS2, hsp, hi1n]
    by_cases hp : post.length = 0
    · simp [hp]
    · have hp2 : ¬ ((post.length : Int) = 0) := by exact_mod_cast hp
      simp [hp, hp2]
  obtain ⟨hi3, hds3, hb3, ha3, postStats, hst3, hlen3⟩ :=
    mlhsLoop_noSplat ctx loc te total post S2 hpost
  refine ⟨lh, preStats, postStats, S1.ctr,
    ((mlhsLoop ctx loc te total post S2).ctr, (mlhsLoop ctx loc te total post S2).diags),
    hlh, hlen1, hlen3, ?_⟩
  rw [desugarMlhs]
  rw [← hte, ← hs0]
  rw [mlhsLoop_append]
  rw [← htotal, ← hS1, mlhsLoop, hstep]
  have hb3n : (mlhsLoop ctx loc te total post S2).before = pre.length := by
    rw [hb3, hS2]
    simp [hb1n]
  have ha3n : (mlhsLoop ctx loc te total post S2).after = post.length := by
    rw [ha3, hS2]
    simp [ha1n]
  have hst3n : (mlhsLoop ctx loc te total post S2).stats
      = preStats ++ splatStat :: postStats := by
    rw [hst3, hS2]
    simp [hst1n]
  rw [hb3n, ha3n, hst3n, MK.InsSeq]
  simp


theorem desugarMlhs_splat_witness :
    (∀ p ∈ [PNode.lvarLhs (Loc.range 0 0 1) (Name.utf8 "a")], p.isSplatLhs = false)
  ∧ (∀ p ∈ [PNode.lvarLhs (Loc.range 0 7 8) (Name.utf8 "c")], p.isSplatLhs = false)
  ∧ (∀ c2, ((node2TreeImpl ctx0 (PNode.lvarLhs (Loc.range 0 4 5) (Name.utf8 "b")) c2).1).isEmptyTree
        = false)
  ∧ (∃ (lh : Expr) (preStats postStats : List Expr) (cmid : Nat) (rend : Nat × List Diag),
      lh = (node2TreeImpl ctx0 (PNode.lvarLhs (Loc.range 0 4 5) (Name.utf8 "b")) cmid).1
    ∧ preStats.length = [PNode.lvarLhs (Loc.range 0 0 1) (Name.utf8 "a")].length
    ∧ postStats.length = [PNode.lvarLhs (Loc.range 0 7 8) (Name.utf8 "c")].length
    ∧ desugarMlhs ctx0 (Loc.range 0 0 12)
        ([PNode.lvarLhs (Loc.range 0 0 1) (Name.utf8 "a")]
          ++ .splatLhsN (Loc.range 0 3 5) (some (PNode.lvarLhs (Loc.range 0 4 5) (Name.utf8 "b")))
          :: [PNode.lvarLhs (Loc.range 0 7 8) (Name.utf8 "c")])
        (MK.Local (Loc.range 0 11 12) (Name.utf8 "r")) 5
        = (Expr.insSeqE (Loc.range 0 0 12)
            (MK.AssignLocal (Loc.range 0 0 12) (Name.unique .desugar Names.assignTemp (5 + 1))
               (MK.Local (Loc.range 0 11 12) (Name.utf8 "r"))
             :: MK.AssignLocal (Loc.range 0 0 12) (Name.unique .desugar Names.assignTemp (5 + 1 + 1))
                  (MK.Send3 (Loc.range 0 0 12) (MK.Constant (Loc.range 0 0 12) .magic) Names.expandSplat
                    (MK.Local (Loc.range 0 0 12) (Name.unique .desugar Names.assignTemp (5 + 1)))
                    (MK.Int_ (Loc.range 0 0 12) [PNode.lvarLhs (Loc.range 0 0 1) (Name.utf8 "a")].length)
                    (MK.Int_ (Loc.range 0 0 12) [PNode.lvarLhs (Loc.range 0 7 8) (Name.utf8 "c")].length))
             :: (preStats
                 ++ MK.Assign lh.loc lh
                      (MK.Send1 (Loc.range 0 0 12)
                        (MK.Local (Loc.range 0 0 12) (Name.unique .desugar Names.assignTemp (5 + 1 + 1)))
                        Names.slice
                        (MK.Send3 lh.loc (MK.Constant lh.loc .rangeCls) Names.newName
                          (MK.Int_ lh.loc [PNode.lvarLhs (Loc.range 0 0 1) (Name.utf8 "a")].length)
                          (MK.Int_ lh.loc
                            (-(if [PNode.lvarLhs (Loc.range 0 7 8) (Name.utf8 "c")].length = 0 then 1
                               else ([PNode.lvarLhs (Loc.range 0 7 8) (Name.utf8 "c")].length : Int))))
                          (if [PNode.lvarLhs (Loc.range 0 7 8) (Name.utf8 "c")].length = 0
                           then MK.False_ lh.loc else MK.True_ lh.loc)))
                 :: postStats))
            (MK.Local (Loc.range 0 0 12) (Name.unique .desugar Names.assignTemp (5 + 1))), rend)) := by
  refine ⟨?_, ?_, ?_, ?_⟩
  · intro p hp; rw [List.mem_singleton] at hp; subst hp; rfl
  · intro p hp; rw [List.mem_singleton] at hp; subst hp; rfl
  · intro c2; simp [node2TreeImpl, MK.Local, Expr.isEmptyTree]
  · exact desugarMlhs_splat ctx0 (Loc.range 0 0 12) (Loc.range 0 3 5)
      [PNode.lvarLhs (Loc.range 0 0 1) (Name.utf8 "a")]
      [PNode.lvarLhs (Loc.range 0 7 8) (Name.utf8 "c")]
      (PNode.lvarLhs (Loc.range 0 4 5) (Name.utf8 "b"))
      (MK.Local (Loc.range 0 11 12) (Name.utf8 "r")) 5
      (by intro p hp; rw [List.mem_singleton] at hp; subst hp; rfl)
      (by intro p hp; rw [List.mem_singleton] at hp; subst hp; rfl)
      (by intro c2; simp [node2TreeImpl, MK.Local, Expr.isEmptyTree])

end Sorbet
